import Mathlib

set_option autoImplicit false

namespace SpocData

/-! Shallow embedding of `src/main.py` of the spoc-data repository: the
indexed sparse file-set loader with parallel fetch and compressed-snapshot
caching. Python strings are Lean `String`s, the POSIX file system is a
`World` record, Python `int` is `Int`, and Python exceptions are made
explicit through the `PyErr` error type. -/

/-- Python exception kinds raised by the code under `src/main.py`. -/
inductive PyErr where
  | valueError
  | keyError
  | assertionError
  | fileNotFound
  | badGzip
  | unpickleError
  | notImplementedError
  | poolError
deriving DecidableEq, Repr

/-- Embedding of `prior.LazyJsonDataset(data=..., dataset=..., split=...)`:
the opaque container the loader hands each split's record strings to. -/
structure LazyJsonDataset where
  data : List String
  dataset : String
  split : String
deriving DecidableEq, Repr

/-- Embedding of `prior.DatasetDict`: an insertion-ordered mapping from split
name to dataset, as built at main.py line 189. -/
abbrev DatasetDict := List (String × LazyJsonDataset)

/-- Byte content of one file on disk, viewed structurally: plain text bytes,
a pickle serialization of a `DatasetDict`, or a gzip archive of other
bytes. -/
inductive FileData where
  | str (s : String)
  | pickled (d : DatasetDict)
  | gzbytes (content : FileData)

/-- The bytes of a `FileData` rendered as a Python byte string (pickle and
gzip framings are rendered through `reprStr`; only the `str` case is ever
compared against by the theorems below). -/
def rawBytes : FileData → String
  | .str s => s
  | .pickled d => "pickle:" ++ reprStr d
  | .gzbytes content => "gzip:" ++ rawBytes content

/-- The parts of the POSIX world `main.py` touches: regular files,
directories, the result of `glob.glob(os.path.join(dir, "*.json.gz"))`, and
`mp.cpu_count()`. -/
structure World where
  files : String → Option FileData
  dirs : String → Bool
  globJsonGz : String → List String
  cpuCount : Nat

/-- `os.path.exists`: true for regular files and for directories. -/
def pathExists (w : World) (p : String) : Bool :=
  (w.files p).isSome || w.dirs p

/-- Writing a regular file (`open(p, "wb")` followed by a full write). -/
def writeFile (w : World) (p : String) (d : FileData) : World :=
  { w with files := fun q => if q = p then some d else w.files q }

/-- `os.remove`. -/
def removeFile (w : World) (p : String) : World :=
  { w with files := fun q => if q = p then none else w.files q }

/-- Python-splitting a character list at every occurrence of a separator
character (all the `str.split` calls in main.py use one-character
separators). -/
def splitChar (sep : Char) : List Char → List (List Char)
  | [] => [[]]
  | c :: rest =>
    if c = sep then [] :: splitChar sep rest
    else
      match splitChar sep rest with
      | [] => [[c]]
      | hd :: tl => (c :: hd) :: tl

/-- Joining character lists with a separator character (Python `sep.join`). -/
def joinChar (sep : Char) : List (List Char) → List Char
  | [] => []
  | [x] => x
  | x :: y :: rest => x ++ sep :: joinChar sep (y :: rest)

/-- `os.path.basename` for POSIX paths: the part after the last slash. -/
def basename (p : String) : String :=
  ⟨(splitChar '/' p.data).getLastD []⟩

/-- `os.path.dirname` for POSIX paths: the part before the last slash (only
ever interpolated into a warning message here). -/
def dirname (p : String) : String :=
  ⟨joinChar '/' (splitChar '/' p.data).dropLast⟩

/-- Whether `a` is an initial run of `b` (the head comparison behind Python
`startswith`, `endswith` and `replace`). -/
def isLeadOf : List Char → List Char → Bool
  | [], _ => true
  | _ :: _, [] => false
  | a :: as, b :: bs => a = b && isLeadOf as bs

/-- Python `str.startswith`. -/
def strStartsWith (s pre : String) : Bool :=
  isLeadOf pre.data s.data

/-- Python `str.endswith`. -/
def strEndsWith (s suf : String) : Bool :=
  isLeadOf suf.data.reverse s.data.reverse

/-- The scan of Python `str.replace`: every non-overlapping occurrence of
`pat` is replaced by `rep`, scanning left to right (for nonempty `pat`;
`main.py` only ever replaces the nonempty pattern `".gz"`). The fuel is one
unit per character of the input, which the scan never exhausts. -/
def replaceAllFuel (pat rep : List Char) : Nat → List Char → List Char
  | _, [] => []
  | 0, l => l
  | fuel + 1, c :: rest =>
    if pat ≠ [] ∧ isLeadOf pat (c :: rest) then
      rep ++ replaceAllFuel pat rep fuel ((c :: rest).drop pat.length)
    else
      c :: replaceAllFuel pat rep fuel rest

/-- Python `str.replace(pat, rep)` (replaces all occurrences). -/
def strReplace (s pat rep : String) : String :=
  ⟨replaceAllFuel pat.data rep.data s.data.length s.data⟩

/-- `os.path.join` for a POSIX path and a second component. -/
def pathJoin (a b : String) : String :=
  if strStartsWith b "/" then b
  else if a = "" ∨ strEndsWith a "/" then a ++ b
  else a ++ "/" ++ b

/-- Value of a decimal digit run. -/
def digitsVal (l : List Char) : Nat :=
  l.foldl (fun a c => a * 10 + (c.toNat - 48)) 0

/-- Python `int(str)` on the shapes occurring as file base names: an optional
sign followed by one or more decimal digits (Python additionally tolerates
surrounding whitespace and inner underscores, which never occur in integer
file names). `none` where Python raises `ValueError`. -/
def pyInt : List Char → Option Int
  | [] => none
  | '-' :: ds =>
    if ds ≠ [] ∧ ds.all (fun c => c.isDigit) then some (-(digitsVal ds : Int)) else none
  | '+' :: ds =>
    if ds ≠ [] ∧ ds.all (fun c => c.isDigit) then some ((digitsVal ds : Int)) else none
  | ds =>
    if ds.all (fun c => c.isDigit) then some ((digitsVal ds : Int)) else none

/-- `int(os.path.basename(p).split(".")[0])` (main.py line 47), returning
`none` where Python `int` raises `ValueError`. -/
def pathIndex (p : String) : Option Int :=
  pyInt ((splitChar '.' (basename p).data).headD [])

/-- The byte values Python `bytes.strip()` removes. -/
def isPySpace (c : Char) : Bool :=
  c = ' ' || c = '\t' || c = '\n' || c = '\r' || c = '\x0b' || c = '\x0c'

/-- Python `.strip()`: remove leading and trailing whitespace. -/
def pyStrip (s : String) : String :=
  ⟨((s.data.dropWhile isPySpace).reverse.dropWhile isPySpace).reverse⟩

/-- Lines of a decompressed text as Python file iteration yields them: each
line keeps its trailing newline; a nonempty remainder after the last newline
is a final line. -/
def pyLines (s : String) : List String :=
  if s.data = [] then []
  else
    let parts := splitChar '\n' s.data
    (parts.dropLast.map (fun l => (⟨l ++ ['\n']⟩ : String))) ++
      (if parts.getLastD [] = [] then [] else [(⟨parts.getLastD []⟩ : String)])

/-- Reading a file's bytes through `gzip.open(..., "r").read()`: succeeds
with the wrapped bytes exactly when the bytes are a gzip archive. -/
def gzReadStr : FileData → Except PyErr String
  | .gzbytes content => .ok (rawBytes content)
  | _ => .error .badGzip

/-- `load_jsongz_as_str` (main.py lines 20-28). `none` embeds Python `None`;
the file's decompressed content is whitespace-stripped. -/
def load_jsongz_as_str (w : World) : Option String → Except PyErr String
  | none => .ok "null"
  | some subpath =>
    match w.files subpath with
    | none => .error .fileNotFound
    | some fd =>
      match gzReadStr fd with
      | .error e => .error e
      | .ok s => .ok (pyStrip s)

/-- `read_jsonlgz` (main.py lines 31-38): newline-delimited records; the loop
appends and then breaks once `len(lines) >= max_lines`, so a cap `m <= 0`
still yields one line when the file has any. -/
def read_jsonlgz (w : World) (path : String) (max_lines : Option Int) :
    Except PyErr (List String) :=
  match w.files path with
  | none => .error .fileNotFound
  | some fd =>
    match gzReadStr fd with
    | .error e => .error e
    | .ok s =>
      let ls := pyLines s
      match max_lines with
      | none => .ok ls
      | some m => .ok (ls.take (max m 1).toNat)

/-- Lookup in a Python dict embedded as an association list whose keys are
kept unique by `dinsert`. -/
def dget (d : List (Int × String)) (k : Int) : Option String :=
  (d.find? (fun kv => kv.1 == k)).map (fun kv => kv.2)

/-- Python `k in d`. -/
def dmem (d : List (Int × String)) (k : Int) : Bool :=
  (d.find? (fun kv => kv.1 == k)).isSome

/-- Python dict insertion: replace the value in place when the key is already
present, append a new binding otherwise. -/
def dinsert (d : List (Int × String)) (k : Int) (v : String) : List (Int × String) :=
  if d.any (fun kv => kv.1 == k) then
    d.map (fun kv => if kv.1 == k then (k, v) else kv)
  else d ++ [(k, v)]

/-- The dict comprehension `{int(basename(p).split(".")[0]): p for p in paths}`
at main.py line 47; an unparseable base name raises `ValueError`. -/
def buildDict : List String → List (Int × String) → Except PyErr (List (Int × String))
  | [], d => .ok d
  | p :: rest, d =>
    match pathIndex p with
    | none => .error .valueError
    | some i => buildDict rest (dinsert d i p)

/-- The total course of the dict comprehension when every base name parses
(`buildDict` then returns `.ok` of this). -/
def buildL : List String → List (Int × String) → List (Int × String)
  | [], d => d
  | p :: rest, d => buildL rest (dinsert d ((pathIndex p).getD 0) p)

/-- Python `max` over a list of ints; `main.py` only applies it to the
nonempty key list of `ind_to_path` (`max([])` would raise). -/
def listMax : List Int → Int
  | [] => 0
  | [k] => k
  | k :: k2 :: rest => max k (listMax (k2 :: rest))

/-- A Python list comprehension `[f(x) for x in xs]` with exception
propagation: the first raising element aborts the whole list. -/
def mapExcept {α β : Type} (f : α → Except PyErr β) : List α → Except PyErr (List β)
  | [] => .ok []
  | a :: rest =>
    match f a with
    | .error e => .error e
    | .ok b =>
      match mapExcept f rest with
      | .error e => .error e
      | .ok bs => .ok (b :: bs)

/-- Collect positionally stored worker results; `none` when some position was
never completed. -/
def collectSlots {β : Type} (acc : Nat → Option β) : List Nat → Option (List β)
  | [] => some []
  | j :: rest =>
    match acc j, collectSlots acc rest with
    | some b, some bs => some (b :: bs)
    | _, _ => none

/-- Pool workers completing in order `sched` write the result for task `i`
into slot `i` (reassembly by position, not by completion time). -/
def runSched {α β : Type} (f : α → β) (xs : List α) :
    List Nat → (Nat → Option β) → Nat → Option β
  | [], acc => acc
  | i :: rest, acc =>
    runSched f xs rest (fun j => if j = i then (xs[i]?).map f else acc j)

/-- Semantics of `mp.Pool(num_workers).map(f, xs)` (main.py lines 68-69):
tasks complete in some order `sched` and results are reassembled by
position. A real pool's completion order is a permutation of the task
indices; a position never completed yields `none`. -/
def mpPoolMap {α β : Type} (f : α → β) (xs : List α) (sched : List Nat) :
    Option (List β) :=
  collectSlots (runSched f xs sched (fun _ => none)) (List.range xs.length)

/-- The fetch stage of `read_jsongz_files` (main.py lines 67-72): the
parallel branch for `num_workers > 0`, the sequential comprehension
otherwise. -/
def fetchRecords (w : World) (num_workers : Int) (sched : List Nat)
    (items : List (Option String)) : Except PyErr (List String) :=
  if 0 < num_workers then
    match mpPoolMap (load_jsongz_as_str w) items sched with
    | some rs => mapExcept (fun r => r) rs
    | none => .error .poolError
  else
    mapExcept (load_jsongz_as_str w) items

/-- Python slice `xs[:m]` for an `int` bound (a negative bound counts from
the end of the list). -/
def pySlice {α : Type} (xs : List α) (m : Int) : List α :=
  if 0 ≤ m then xs.take m.toNat else xs.take ((xs.length : Int) + m).toNat

/-- Result of `read_jsongz_files`: the returned value (or the exception) and
the warnings emitted before returning. -/
structure ReadResult where
  result : Except PyErr (List String)
  warnings : List String

/-- The warning text of main.py line 57. -/
def missingWarn (missing_count : Nat) (dir : String) : String :=
  s!"Missing {missing_count} files in {dir}."

/-- `read_jsongz_files` (main.py lines 41-72). `sched` is the completion
order of the pool tasks in the parallel branch (ignored sequentially). -/
def read_jsongz_files (w : World) (paths : List String) (num_workers : Int)
    (max_files : Option Int) (sched : List Nat) : ReadResult :=
  if paths.length = 0 then ⟨.ok [], []⟩
  else
    match buildDict paths [] with
    | .error e => ⟨.error e, []⟩
    | .ok d =>
      let max_ind : Int := listMax (d.map (fun kv => kv.1))
      let n : Nat := (max_ind + 1).toNat
      let missing_count := ((List.range n).filter (fun i => ! dmem d (Int.ofNat i))).length
      let p0 := paths.headD ""
      let warns := if 0 < missing_count then
          [missingWarn missing_count (dirname p0)] else []
      let dense : List (Option String) := (List.range n).map (fun i => dget d (Int.ofNat i))
      let dense2 := match max_files with
        | none => dense
        | some m => pySlice dense m
      if dense2.length = 0 then ⟨.ok [], warns⟩
      else ⟨fetchRecords w num_workers sched dense2, warns⟩

/-- The gap-filled position sequence that `read_jsongz_files` builds before
applying the cap: position `i` holds the path with index `i`, or `none`. -/
def densePaths (paths : List String) : List (Option String) :=
  if paths.length = 0 then []
  else
    match buildDict paths [] with
    | .error _ => []
    | .ok d =>
      (List.range ((listMax (d.map (fun kv => kv.1)) + 1).toNat)).map
        (fun i => dget d (Int.ofNat i))

/-- Length of the gap-filled sequence (`max(index) + 1` when the indices are
nonnegative). -/
def denseLen (paths : List String) : Nat :=
  (densePaths paths).length

/-- Number of gap positions (absence markers) in the gap-filled sequence. -/
def missingCount (paths : List String) : Nat :=
  ((densePaths paths).filter (fun o => o.isNone)).length

/-- The cap step of main.py lines 61-62. -/
def capApply (mf : Option Int) (l : List (Option String)) : List (Option String) :=
  match mf with
  | none => l
  | some m => pySlice l m

/-- The dict of main.py line 47 in total form (defined when every base name
parses). -/
def readDict (paths : List String) : List (Int × String) :=
  buildL paths []

/-- The number `max_ind + 1` of positions materialized by the gap fill. -/
def readLen (paths : List String) : Nat :=
  (listMax ((readDict paths).map (fun kv => kv.1)) + 1).toNat

/-- The `missing_count` of main.py lines 50-54. -/
def readMissing (paths : List String) : Nat :=
  ((List.range (readLen paths)).filter (fun i => ! dmem (readDict paths) (Int.ofNat i))).length

/-- The warnings `read_jsongz_files` emits (main.py lines 56-57). -/
def readWarnList (paths : List String) : List String :=
  if 0 < readMissing paths then
    [missingWarn (readMissing paths) (dirname (paths.headD ""))]
  else []

/-- `get_cache_file_path` (main.py lines 75-77). -/
def get_cache_file_path (path : String) : String :=
  pathJoin path "dataset_cache.pkl.gz"

/-- `compress_file_then_delete_old` (main.py lines 80-86): gzip-compress the
input file's bytes into the output path, then remove the input file. The
`compresslevel` does not affect the observable content. -/
def compress_file_then_delete_old (w : World) (input_file_path output_file_path : String)
    (compresslevel : Int) : World × Option PyErr :=
  match w.files input_file_path with
  | none => (w, some .fileNotFound)
  | some fd =>
    (removeFile (writeFile w output_file_path (.gzbytes fd)) input_file_path, none)

/-- `save_pickle_gzip` (main.py lines 89-102): assert the `.pkl.gz` suffix,
assert that the TEMPORARY path `save_path.replace(".gz", "")` does not exist
(there is no existence check on `save_path` itself), write the uncompressed
pickle to the temporary path, then compress it into `save_path` and delete
the temporary file. Returns the world after the call and the exception it
raised, if any. -/
def save_pickle_gzip (w : World) (data : DatasetDict) (save_path : String)
    (compresslevel : Int) : World × Option PyErr :=
  if strEndsWith save_path ".pkl.gz" = false then (w, some .assertionError)
  else
    let tmp_path := strReplace save_path ".gz" ""
    if pathExists w tmp_path then (w, some .assertionError)
    else
      let w1 := writeFile w tmp_path (.pickled data)
      compress_file_then_delete_old w1 tmp_path save_path compresslevel

/-- `pickle.load(gzip.open(path, "rb"))`: succeeds exactly on a gzip archive
of a pickle serialization. -/
def unpickleGz : FileData → Except PyErr DatasetDict
  | .gzbytes (.pickled d) => .ok d
  | .gzbytes _ => .error .unpickleError
  | _ => .error .badGzip

/-- `load_pickle_gzip` (main.py lines 105-108). -/
def load_pickle_gzip (w : World) (path : String) : Except PyErr DatasetDict :=
  if strEndsWith path ".pkl.gz" = false then .error .assertionError
  else
    match w.files path with
    | none => .error .fileNotFound
    | some fd => unpickleGz fd

/-- The `max_houses_per_split` argument of `load_dataset`: Python `None`, a
single `int`, or an explicit `dict`. -/
inductive MaxHouses where
  | noCap
  | intCap (n : Int)
  | dictCap (d : List (String × Int))
deriving DecidableEq, Repr

/-- Main.py lines 143-144 plus the later `max_houses_per_split[split]`
lookups: a non-dict value is wrapped into `defaultdict(lambda: x)`, so every
split name yields the same cap; an explicit dict is kept as is, so a missing
key raises `KeyError` at the lookup. -/
def capForSplit : MaxHouses → String → Except PyErr (Option Int)
  | .noCap, _ => .ok none
  | .intCap n, _ => .ok (some n)
  | .dictCap d, s =>
    match d.find? (fun kv => kv.1 == s) with
    | some kv => .ok (some kv.2)
    | none => .error .keyError

/-- The warning text of main.py lines 165-167. -/
def splitWarn (split path : String) : String :=
  s!"Split {split} does not exist at path {path}, won\x27t be included."

/-- Resolution of one split (main.py lines 174-187): a `.jsonl.gz` source is
read line by line, a directory is globbed and read through
`read_jsongz_files`, anything else raises `NotImplementedError`. The cap
lookup `max_houses_per_split[split]` happens before any reading and may
raise `KeyError`. Returns the records (or the exception) and the warnings
emitted. -/
def resolveOne (w : World) (num_workers : Int) (sched : List Nat)
    (mh : String → Except PyErr (Option Int)) (split path : String) :
    Except PyErr (List String) × List String :=
  if strEndsWith path ".jsonl.gz" then
    match mh split with
    | .error e => (.error e, [])
    | .ok m => (read_jsonlgz w path m, [])
  else if w.dirs path then
    let subpaths := w.globJsonGz path
    match mh split with
    | .error e => (.error e, [])
    | .ok m =>
      let r := read_jsongz_files w subpaths num_workers m sched
      (r.result, r.warnings)
  else (.error .notImplementedError, [])

/-- The split resolution loop of main.py lines 172-187, in split order; the
first raising split aborts the whole load, keeping the warnings emitted so
far. -/
def resolveSplits (w : World) (num_workers : Int) (sched : List Nat)
    (mh : String → Except PyErr (Option Int)) :
    List (String × String) → Except PyErr (List (String × List String)) × List String
  | [] => (.ok [], [])
  | (s, p) :: rest =>
    match resolveOne w num_workers sched mh s p with
    | (.error e, ws) => (.error e, ws)
    | (.ok hs, ws) =>
      match resolveSplits w num_workers sched mh rest with
      | (.error e, ws2) => (.error e, ws ++ ws2)
      | (.ok tl, ws2) => (.ok ((s, hs) :: tl), ws ++ ws2)

/-- Result of `load_dataset`: the returned world and bundle (or the
exception) together with the warnings emitted before returning. -/
structure LoadResult where
  result : Except PyErr (World × DatasetDict)
  warnings : List String

/-- Main.py lines 196-201: after assembling the bundle, write the cache
artifact when caching is on and no file exists at the cache path. -/
def assembleCache (w : World) (use_cache : Bool) (path_to_splits : Option String)
    (dd : DatasetDict) (warns : List String) : LoadResult :=
  if use_cache then
    let cfp := get_cache_file_path (path_to_splits.getD "")
    if pathExists w cfp then ⟨.ok (w, dd), warns⟩
    else
      match save_pickle_gzip w dd cfp 2 with
      | (w2, none) => ⟨.ok (w2, dd), warns⟩
      | (_, some e) => ⟨.error e, warns⟩
  else ⟨.ok (w, dd), warns⟩

/-- Main.py lines 162-201: drop (with a warning) every split whose source
path does not exist, fail with `ValueError("No splits found.")` when none
survive, resolve the surviving splits in order, wrap them into the bundle,
and finally write the cache artifact when caching is on and no file exists
at the cache path. -/
def loadSplits (w : World) (num_workers : Int) (use_cache : Bool)
    (path_to_splits : Option String) (mh : String → Except PyErr (Option Int))
    (sched : List Nat) (split_to_path : List (String × String)) : LoadResult :=
  let missing := split_to_path.filter (fun sp => ! pathExists w sp.2)
  let kept := split_to_path.filter (fun sp => pathExists w sp.2)
  let warns0 := missing.map (fun sp => splitWarn sp.1 sp.2)
  if kept.length = 0 then ⟨.error .valueError, warns0⟩
  else
    match resolveSplits w num_workers sched mh kept with
    | (.error e, ws) => ⟨.error e, warns0 ++ ws⟩
    | (.ok resolved, ws) =>
      assembleCache w use_cache path_to_splits
        (resolved.map (fun sh => (sh.1, ⟨sh.2, "procthor-100k", sh.1⟩)))
        (warns0 ++ ws)

/-- `load_dataset` (main.py lines 111-201). The three `assert`s come first;
a non-dict `max_houses_per_split` is normalized; with `use_cache` an
existing artifact at `<path_to_splits>/dataset_cache.pkl.gz` is loaded and
returned with no split resolution at all; otherwise the splits are resolved
(fixed `train`/`val`/`test` subdirectories when `path_to_splits` is given)
and the artifact is written at the end exactly when no file exists at the
cache path. -/
def load_dataset (w : World) (path_to_splits : Option String)
    (split_to_path : Option (List (String × String))) (num_workers : Int)
    (use_cache : Bool) (max_houses_per_split : MaxHouses) (sched : List Nat) :
    LoadResult :=
  if path_to_splits.isNone = split_to_path.isNone then ⟨.error .assertionError, []⟩
  else if use_cache ∧ path_to_splits.isNone then ⟨.error .assertionError, []⟩
  else if use_cache ∧ max_houses_per_split ≠ .noCap then ⟨.error .assertionError, []⟩
  else
    let mh := capForSplit max_houses_per_split
    if use_cache ∧ pathExists w (get_cache_file_path (path_to_splits.getD "")) then
      match load_pickle_gzip w (get_cache_file_path (path_to_splits.getD "")) with
      | .error e => ⟨.error e, []⟩
      | .ok d => ⟨.ok (w, d), []⟩
    else
      let nw : Int := if num_workers < 0 then (w.cpuCount : Int) else num_workers
      match path_to_splits with
      | some pts =>
        if pathExists w pts = false then ⟨.error .assertionError, []⟩
        else
          loadSplits w nw use_cache path_to_splits mh sched
            [("train", pathJoin pts "train"), ("val", pathJoin pts "val"),
             ("test", pathJoin pts "test")]
      | none =>
        loadSplits w nw use_cache path_to_splits mh sched (split_to_path.getD [])

/-- The value a successful `load_jsongz_as_str` call produces (arbitrary on
failure; used to express successful reads positionally). -/
def loadVal (w : World) (o : Option String) : String :=
  match load_jsongz_as_str w o with
  | .ok s => s
  | .error _ => ""

/-! ### Concrete data used to witness the theorems below -/

/-- A directory `d` holding shards 0, 2 and 5 (indices 1, 3, 4 missing). -/
def wGaps : World :=
  { files := fun p =>
      if p = "d/0.json.gz" then some (.gzbytes (.str " A ")) else
      if p = "d/2.json.gz" then some (.gzbytes (.str "B")) else
      if p = "d/5.json.gz" then some (.gzbytes (.str "C")) else none,
    dirs := fun p => p = "d",
    globJsonGz := fun p =>
      if p = "d" then ["d/0.json.gz", "d/2.json.gz", "d/5.json.gz"] else [],
    cpuCount := 4 }

/-- The shard paths of `wGaps`. -/
def pathsGaps : List String :=
  ["d/0.json.gz", "d/2.json.gz", "d/5.json.gz"]

/-- A directory `t` holding shards 0 through 9. -/
def wTen : World :=
  { files := fun p =>
      if p ∈ (List.range 10).map (fun i => s!"t/{i}.json.gz") then
        some (.gzbytes (.str "X"))
      else none,
    dirs := fun p => p = "t",
    globJsonGz := fun p =>
      if p = "t" then (List.range 10).map (fun i => s!"t/{i}.json.gz") else [],
    cpuCount := 4 }

/-- The shard paths of `wTen`. -/
def pathsTen : List String :=
  (List.range 10).map (fun i => s!"t/{i}.json.gz")

/-- One readable shard and one corrupt (non-gzip) file. -/
def wFiles : World :=
  { files := fun p =>
      if p = "a.json.gz" then some (.gzbytes (.str " A ")) else
      if p = "bad.json.gz" then some (.str "junk") else none,
    dirs := fun _ => false,
    globJsonGz := fun _ => [],
    cpuCount := 1 }

/-- A root whose cache artifact already exists (for the overwrite claims). -/
def wOccupied : World :=
  { files := fun p =>
      if p = "r/dataset_cache.pkl.gz" then some (.gzbytes (.pickled [])) else none,
    dirs := fun _ => false,
    globJsonGz := fun _ => [],
    cpuCount := 1 }

/-- A root whose uncompressed TEMPORARY cache path exists. -/
def wTmpBusy : World :=
  { files := fun p =>
      if p = "r/dataset_cache.pkl" then some (.str "stale") else none,
    dirs := fun _ => false,
    globJsonGz := fun _ => [],
    cpuCount := 1 }

/-- A nonempty bundle, distinct from the empty bundle stored in `wOccupied`. -/
def ddNew : DatasetDict :=
  [("train", ⟨["X"], "procthor-100k", "train"⟩)]

/-- A split root `r` with an empty `train` directory, missing `val` and
`test`, and no cache artifact. -/
def wRoot : World :=
  { files := fun _ => none,
    dirs := fun p => p = "r" || p = "r/train",
    globJsonGz := fun _ => [],
    cpuCount := 2 }

/-! ### Properties of the character-list string helpers -/

theorem isLeadOf_iff (a : List Char) : ∀ (b : List Char), isLeadOf a b = true ↔ a <+: b := by
  induction a with
  | nil =>
    intro b
    simp only [isLeadOf, true_iff]
    exact ⟨b, rfl⟩
  | cons c as ih =>
    intro b
    cases b with
    | nil =>
      simp only [isLeadOf, Bool.false_eq_true, false_iff]
      rintro ⟨t, ht⟩
      exact List.cons_ne_nil c (as ++ t) ht
    | cons d bs =>
      simp only [isLeadOf, Bool.and_eq_true, decide_eq_true_eq, ih bs,
        List.cons_prefix_cons]

theorem strEndsWith_iff (s suf : String) :
    strEndsWith s suf = true ↔ suf.data <:+ s.data := by
  rw [strEndsWith, isLeadOf_iff]
  exact List.reverse_prefix

theorem strEndsWith_append (a b suf : String) (h : strEndsWith b suf = true) :
    strEndsWith (a ++ b) suf = true := by
  rw [strEndsWith_iff] at h ⊢
  rw [String.data_append]
  exact h.trans (List.suffix_append a.data b.data)

theorem cache_file_path_endsWith (root : String) :
    strEndsWith (get_cache_file_path root) ".pkl.gz" = true := by
  have hconc : strEndsWith "dataset_cache.pkl.gz" ".pkl.gz" = true := by decide
  rw [get_cache_file_path, pathJoin]
  have hstart : strStartsWith "dataset_cache.pkl.gz" "/" = false := by decide
  rw [hstart]
  simp only [Bool.false_eq_true, if_false]
  by_cases h : root = "" ∨ strEndsWith root "/" = true
  · simp only [h, if_true]
    exact strEndsWith_append root "dataset_cache.pkl.gz" ".pkl.gz" hconc
  · simp only [h, if_false]
    exact strEndsWith_append (root ++ "/") "dataset_cache.pkl.gz" ".pkl.gz" hconc

theorem replaceAllFuel_del_length_le (pat : List Char) :
    ∀ (fuel : Nat) (l : List Char), (replaceAllFuel pat [] fuel l).length ≤ l.length := by
  intro fuel
  induction fuel with
  | zero =>
    intro l
    cases l <;> simp [replaceAllFuel]
  | succ fuel ih =>
    intro l
    cases l with
    | nil => simp [replaceAllFuel]
    | cons c rest =>
      rw [replaceAllFuel]
      by_cases h : pat ≠ [] ∧ isLeadOf pat (c :: rest) = true
      · rw [if_pos h, List.nil_append]
        calc (replaceAllFuel pat [] fuel ((c :: rest).drop pat.length)).length
            ≤ ((c :: rest).drop pat.length).length := ih _
          _ ≤ (c :: rest).length := by
              simp only [List.length_drop]
              omega
      · rw [if_neg h]
        simp only [List.length_cons]
        have := ih rest
        omega

theorem infix_drop_head {pat : List Char} {c : Char} {rest : List Char}
    (h : pat <:+: c :: rest) (hnp : ¬ pat <+: c :: rest) : pat <:+: rest := by
  obtain ⟨s, t, hst⟩ := h
  cases s with
  | nil =>
    exact absurd ⟨t, by simpa using hst⟩ hnp
  | cons a s2 =>
    refine ⟨s2, t, ?_⟩
    have := hst
    simp only [List.cons_append] at this
    exact (List.cons.injEq a _ c rest).mp this |>.2

theorem replaceAllFuel_del_length_lt (pat : List Char) (hp : pat ≠ []) :
    ∀ (fuel : Nat) (l : List Char), pat <:+: l → l.length ≤ fuel →
      (replaceAllFuel pat [] fuel l).length < l.length := by
  intro fuel
  induction fuel with
  | zero =>
    intro l hocc hlen
    have hl : l = [] := List.length_eq_zero.mp (Nat.le_zero.mp hlen)
    subst hl
    obtain ⟨s, t, hst⟩ := hocc
    rcases List.append_eq_nil.mp (List.append_eq_nil.mp hst).1 with ⟨-, h2⟩
    exact absurd h2 hp
  | succ fuel ih =>
    intro l hocc hlen
    cases l with
    | nil =>
      obtain ⟨s, t, hst⟩ := hocc
      rcases List.append_eq_nil.mp (List.append_eq_nil.mp hst).1 with ⟨-, h2⟩
      exact absurd h2 hp
    | cons c rest =>
      rw [replaceAllFuel]
      by_cases h : pat ≠ [] ∧ isLeadOf pat (c :: rest) = true
      · rw [if_pos h, List.nil_append]
        have h1 : (replaceAllFuel pat [] fuel ((c :: rest).drop pat.length)).length
            ≤ ((c :: rest).drop pat.length).length := replaceAllFuel_del_length_le pat fuel _
        have hp1 : 0 < pat.length := List.length_pos.mpr hp
        simp only [List.length_drop, List.length_cons] at h1 ⊢
        omega
      · have hnl : ¬ isLeadOf pat (c :: rest) = true := by
          intro hc
          exact h ⟨hp, hc⟩
        have hnp : ¬ pat <+: c :: rest := fun hc => hnl ((isLeadOf_iff pat _).mpr hc)
        rw [if_neg h]
        have hlen2 : rest.length ≤ fuel := by
          simp only [List.length_cons] at hlen
          omega
        have := ih rest (infix_drop_head hocc hnp) hlen2
        simp only [List.length_cons]
        omega

theorem strReplace_gz_ne {sp : String} (h : strEndsWith sp ".pkl.gz" = true) :
    strReplace sp ".gz" "" ≠ sp := by
  have hsuf : ".pkl.gz".data <:+ sp.data := (strEndsWith_iff sp ".pkl.gz").mp h
  have hsuf2 : ".gz".data <:+ ".pkl.gz".data := ⟨['.', 'p', 'k', 'l'], rfl⟩
  have hocc : ".gz".data <:+: sp.data := (hsuf2.trans hsuf).isInfix
  have hlt : (strReplace sp ".gz" "").data.length < sp.data.length := by
    have := replaceAllFuel_del_length_lt ".gz".data (by decide) sp.data.length sp.data hocc
      (le_refl _)
    simpa [strReplace] using this
  intro hc
  rw [hc] at hlt
  exact lt_irrefl _ hlt

/-! ### Properties of `mapExcept` and the pool semantics -/

theorem mapExcept_eq_ok_map {α β : Type} (f : α → Except PyErr β) (g : α → β)
    (l : List α) (h : ∀ a ∈ l, f a = .ok (g a)) : mapExcept f l = .ok (l.map g) := by
  induction l with
  | nil => rfl
  | cons a rest ih =>
    rw [mapExcept, h a (List.mem_cons_self a rest),
      ih (fun b hb => h b (List.mem_cons_of_mem a hb)), List.map_cons]

theorem mapExcept_ok_elim {α β : Type} (f : α → Except PyErr β) (da : α) (db : β) :
    ∀ (l : List α) (rs : List β), mapExcept f l = .ok rs →
      rs.length = l.length ∧ ∀ i, i < l.length → f (l.getD i da) = .ok (rs.getD i db) := by
  intro l
  induction l with
  | nil =>
    intro rs h
    rw [mapExcept] at h
    cases h
    exact ⟨rfl, fun i hi => absurd hi (by simp)⟩
  | cons a rest ih =>
    intro rs h
    rw [mapExcept] at h
    cases hfa : f a with
    | error e => rw [hfa] at h; cases h
    | ok b =>
      rw [hfa] at h
      cases hrest : mapExcept f rest with
      | error e => rw [hrest] at h; cases h
      | ok bs =>
        rw [hrest] at h
        cases h
        obtain ⟨hlen, hpt⟩ := ih bs hrest
        refine ⟨by simp [hlen], ?_⟩
        intro i hi
        cases i with
        | zero => simpa using hfa
        | succ j =>
          simp only [List.getD_cons_succ]
          exact hpt j (by simpa using hi)

theorem mapExcept_id_map {α β : Type} (f : α → Except PyErr β) (l : List α) :
    mapExcept (fun r => r) (l.map f) = mapExcept f l := by
  induction l with
  | nil => rfl
  | cons a rest ih =>
    rw [List.map_cons, mapExcept, mapExcept, ih]

theorem runSched_apply {α β : Type} (f : α → β) (xs : List α) :
    ∀ (sched : List Nat) (acc : Nat → Option β) (j : Nat),
      runSched f xs sched acc j = if j ∈ sched then (xs[j]?).map f else acc j := by
  intro sched
  induction sched with
  | nil =>
    intro acc j
    simp [runSched]
  | cons i rest ih =>
    intro acc j
    rw [runSched, ih]
    by_cases hj : j ∈ rest
    · simp [hj, List.mem_cons]
    · by_cases hji : j = i
      · subst hji
        simp [hj, List.mem_cons]
      · simp [hj, hji, List.mem_cons]

theorem collectSlots_eq_map {β : Type} (g : Nat → β) :
    ∀ (idxs : List Nat) (acc : Nat → Option β), (∀ j ∈ idxs, acc j = some (g j)) →
      collectSlots acc idxs = some (idxs.map g) := by
  intro idxs
  induction idxs with
  | nil => intro acc _; rfl
  | cons i rest ih =>
    intro acc h
    rw [collectSlots, h i (List.mem_cons_self i rest),
      ih acc (fun j hj => h j (List.mem_cons_of_mem i hj)), List.map_cons]

theorem range_map_getD {α β : Type} [Inhabited α] (xs : List α) (f : α → β) :
    (List.range xs.length).map (fun j => f (xs.getD j default)) = xs.map f := by
  apply List.ext_getElem
  · simp
  · intro i h1 h2
    simp only [List.getElem_map, List.getElem_range, List.getD_eq_getElem?_getD]
    rw [List.getElem?_eq_getElem (by simpa using h2)]
    rfl

theorem mpPoolMap_eq_map {α β : Type} [Inhabited α] (f : α → β) (xs : List α)
    (sched : List Nat) (hcov : ∀ j, j < xs.length → j ∈ sched) :
    mpPoolMap f xs sched = some (xs.map f) := by
  rw [mpPoolMap]
  have h1 : ∀ j ∈ List.range xs.length,
      runSched f xs sched (fun _ => none) j = some (f (xs.getD j default)) := by
    intro j hj
    have hjlen : j < xs.length := List.mem_range.mp hj
    rw [runSched_apply]
    simp only [hcov j hjlen, if_true]
    rw [List.getElem?_eq_getElem hjlen, List.getD_eq_getElem?_getD,
      List.getElem?_eq_getElem hjlen]
    rfl
  rw [collectSlots_eq_map (fun j => f (xs.getD j default)) _ _ h1, range_map_getD]

theorem fetchRecords_eq_mapExcept (w : World) (num_workers : Int) (sched : List Nat)
    (items : List (Option String)) (hcov : ∀ j, j < items.length → j ∈ sched) :
    fetchRecords w num_workers sched items = mapExcept (load_jsongz_as_str w) items := by
  rw [fetchRecords]
  by_cases h : 0 < num_workers
  · rw [if_pos h, mpPoolMap_eq_map (load_jsongz_as_str w) items sched hcov]
    exact mapExcept_id_map (load_jsongz_as_str w) items
  · rw [if_neg h]

/-! ### Properties of the dict embedding -/

theorem dmem_eq_isSome_dget (d : List (Int × String)) (k : Int) :
    dmem d k = (dget d k).isSome := by
  rw [dmem, dget]
  cases d.find? (fun kv => kv.1 == k) <;> rfl

theorem find?_key_cons_of_eq (kv : Int × String) (t : List (Int × String)) (q : Int)
    (h : kv.1 = q) :
    List.find? (fun kv2 => kv2.1 == q) (kv :: t) = some kv := by
  apply List.find?_cons_of_pos
  simp [h]

theorem find?_key_cons_of_ne (kv : Int × String) (t : List (Int × String)) (q : Int)
    (h : ¬ kv.1 = q) :
    List.find? (fun kv2 => kv2.1 == q) (kv :: t) = List.find? (fun kv2 => kv2.1 == q) t := by
  apply List.find?_cons_of_neg
  simp [h]

theorem dget_map_replace (k q : Int) (v : String) :
    ∀ (d : List (Int × String)),
      dget (d.map (fun kv => if kv.1 == k then (k, v) else kv)) q =
        if q = k ∧ d.any (fun kv => kv.1 == k) = true then some v else dget d q := by
  intro d
  induction d with
  | nil => simp [dget]
  | cons kv0 t ih =>
    simp only [dget] at ih ⊢
    rw [List.map_cons]
    by_cases h0 : kv0.1 = k
    · have hg : (if (kv0.1 == k) = true then (k, v) else kv0) = (k, v) := by
        simp [h0]
      rw [hg]
      have hany : ((kv0 :: t).any fun kv => kv.1 == k) = true :=
        List.any_eq_true.mpr ⟨kv0, List.mem_cons_self kv0 t, by simp [h0]⟩
      rw [hany]
      by_cases hq : q = k
      · subst hq
        rw [find?_key_cons_of_eq (q, v) _ q rfl]
        simp
      · rw [find?_key_cons_of_ne _ _ _ (fun hc => hq hc.symm), ih,
          find?_key_cons_of_ne _ _ _ (fun hc => hq (h0 ▸ hc).symm),
          if_neg (by rintro ⟨rfl, -⟩; exact hq rfl),
          if_neg (by rintro ⟨rfl, -⟩; exact hq rfl)]
    · have hg : (if (kv0.1 == k) = true then (k, v) else kv0) = kv0 := by
        simp [h0]
      rw [hg]
      have hany : ((kv0 :: t).any fun kv => kv.1 == k) = (t.any fun kv => kv.1 == k) := by
        simp [List.any_cons, h0]
      rw [hany]
      by_cases hq0 : kv0.1 = q
      · have hqk : ¬ (q = k ∧ (t.any fun kv => kv.1 == k) = true) := by
          rintro ⟨rfl, -⟩
          exact h0 hq0
        rw [find?_key_cons_of_eq _ _ _ hq0, if_neg hqk, find?_key_cons_of_eq _ _ _ hq0]
      · rw [find?_key_cons_of_ne _ _ _ hq0, ih, find?_key_cons_of_ne _ _ _ hq0]

theorem dget_dinsert (d : List (Int × String)) (k q : Int) (v : String) :
    dget (dinsert d k v) q = if q = k then some v else dget d q := by
  rw [dinsert]
  by_cases hany : d.any (fun kv => kv.1 == k) = true
  · rw [if_pos hany, dget_map_replace]
    by_cases hq : q = k
    · simp [hq, hany]
    · simp [hq]
  · rw [if_neg hany]
    simp only [dget]
    rw [List.find?_append]
    by_cases hq : q = k
    · subst hq
      have hnone : d.find? (fun kv => kv.1 == q) = none := by
        rw [List.find?_eq_none]
        intro kv hkv hbeq
        exact hany (List.any_eq_true.mpr ⟨kv, hkv, hbeq⟩)
      rw [hnone, Option.none_or, find?_key_cons_of_eq (q, v) [] q rfl]
      simp
    · cases hf : d.find? (fun kv => kv.1 == q) with
      | some kv => simp [hq]
      | none =>
        rw [Option.none_or, find?_key_cons_of_ne (k, v) [] q (fun hc => hq hc.symm)]
        simp [hq]

theorem dmem_iff_mem_keys (d : List (Int × String)) (q : Int) :
    dmem d q = true ↔ q ∈ d.map (fun kv => kv.1) := by
  rw [dmem, List.find?_isSome, List.mem_map]
  constructor
  · rintro ⟨kv, hkv, hb⟩
    exact ⟨kv, hkv, beq_iff_eq.mp hb⟩
  · rintro ⟨kv, hkv, hb⟩
    exact ⟨kv, hkv, by simp [hb]⟩

theorem mem_keys_dinsert (d : List (Int × String)) (k q : Int) (v : String) :
    q ∈ (dinsert d k v).map (fun kv => kv.1) ↔ q = k ∨ q ∈ d.map (fun kv => kv.1) := by
  rw [← dmem_iff_mem_keys, ← dmem_iff_mem_keys, dmem_eq_isSome_dget,
    dmem_eq_isSome_dget, dget_dinsert]
  by_cases hq : q = k
  · simp [hq]
  · simp [hq]

theorem buildDict_eq_ok (ps : List String) :
    ∀ (d0 : List (Int × String)), (∀ p ∈ ps, (pathIndex p).isSome) →
      buildDict ps d0 = .ok (buildL ps d0) := by
  induction ps with
  | nil => intro d0 _; rfl
  | cons p rest ih =>
    intro d0 h
    obtain ⟨i, hi⟩ := Option.isSome_iff_exists.mp (h p (List.mem_cons_self p rest))
    rw [buildDict, hi, buildL, hi]
    exact ih (dinsert d0 ((some i).getD 0) p) (fun q hq => h q (List.mem_cons_of_mem p hq))

theorem dget_buildL (ps : List String) :
    ∀ (d0 : List (Int × String)) (k : Int), (∀ p ∈ ps, (pathIndex p).isSome) →
      dget (buildL ps d0) k =
        (match ps.reverse.find? (fun p => pathIndex p == some k) with
         | some p => some p
         | none => dget d0 k) := by
  induction ps with
  | nil => intro d0 k _; rfl
  | cons p rest ih =>
    intro d0 k h
    obtain ⟨i, hi⟩ := Option.isSome_iff_exists.mp (h p (List.mem_cons_self p rest))
    rw [buildL, ih (dinsert d0 ((pathIndex p).getD 0) p) k
      (fun q hq => h q (List.mem_cons_of_mem p hq))]
    rw [List.reverse_cons, List.find?_append]
    cases hf : rest.reverse.find? (fun q => pathIndex q == some k) with
    | some q => simp [hf]
    | none =>
      simp only [hf, Option.none_or]
      rw [dget_dinsert, hi]
      by_cases hik : i = k
      · subst hik
        simp [List.find?_cons, hi]
      · have hh : (pathIndex p == some k) = false := by
          rw [hi]
          simp [beq_eq_false_iff_ne, hik]
        simp [List.find?_cons, hh, hik]
        intro hc
        exact absurd hc.symm hik

theorem mem_keys_buildL (ps : List String) :
    ∀ (d0 : List (Int × String)) (q : Int), (∀ p ∈ ps, (pathIndex p).isSome) →
      (q ∈ (buildL ps d0).map (fun kv => kv.1) ↔
        (∃ p ∈ ps, pathIndex p = some q) ∨ q ∈ d0.map (fun kv => kv.1)) := by
  induction ps with
  | nil =>
    intro d0 q _
    simp [buildL]
  | cons p rest ih =>
    intro d0 q h
    rw [buildL, ih (dinsert d0 ((pathIndex p).getD 0) p) q
      (fun x hx => h x (List.mem_cons_of_mem p hx)), mem_keys_dinsert]
    obtain ⟨i, hi⟩ := Option.isSome_iff_exists.mp (h p (List.mem_cons_self p rest))
    rw [hi]
    simp only [Option.getD_some]
    constructor
    · rintro (⟨x, hx, hxe⟩ | h2 | h3)
      · exact Or.inl ⟨x, List.mem_cons_of_mem p hx, hxe⟩
      · exact Or.inl ⟨p, List.mem_cons_self p rest, by rw [hi, h2]⟩
      · exact Or.inr h3
    · rintro (⟨x, hx, hxe⟩ | h3)
      · rcases List.mem_cons.mp hx with rfl | hx2
        · rw [hi] at hxe
          refine Or.inr (Or.inl ?_)
          injection hxe with h2
          exact h2.symm
        · exact Or.inl ⟨x, hx2, hxe⟩
      · exact Or.inr (Or.inr h3)

theorem dmem_buildL_iff (paths : List String) (hsome : ∀ p ∈ paths, (pathIndex p).isSome)
    (k : Int) : dmem (buildL paths []) k = true ↔ ∃ p ∈ paths, pathIndex p = some k := by
  rw [dmem_eq_isSome_dget, dget_buildL paths [] k hsome]
  cases hf : paths.reverse.find? (fun p => pathIndex p == some k) with
  | some q =>
    simp only [Option.isSome_some, true_iff]
    refine ⟨q, List.mem_reverse.mp (List.mem_of_find?_eq_some hf), ?_⟩
    have := List.find?_some hf
    exact beq_iff_eq.mp this
  | none =>
    constructor
    · intro hcontra
      rw [show dget [] k = none from rfl] at hcontra
      cases hcontra
    · rintro ⟨p, hp, hpk⟩
      rw [List.find?_eq_none] at hf
      exact absurd (by simp [hpk] : (pathIndex p == some k) = true)
        (by simpa using hf p (List.mem_reverse.mpr hp))

/-! ### Properties of `listMax` -/

theorem listMax_mem : ∀ (l : List Int), l ≠ [] → listMax l ∈ l := by
  intro l
  induction l with
  | nil => intro h; exact absurd rfl h
  | cons k t ih =>
    intro _
    cases t with
    | nil => simp [listMax]
    | cons k2 r =>
      rw [listMax]
      rcases max_cases k (listMax (k2 :: r)) with ⟨heq, -⟩ | ⟨heq, -⟩
      · rw [heq]
        exact List.mem_cons_self k (k2 :: r)
      · rw [heq]
        exact List.mem_cons_of_mem k (ih (by simp))

theorem le_listMax : ∀ (l : List Int) (x : Int), x ∈ l → x ≤ listMax l := by
  intro l
  induction l with
  | nil => intro x hx; cases hx
  | cons k t ih =>
    intro x hx
    cases t with
    | nil =>
      rw [List.mem_singleton.mp hx]
      exact le_refl _
    | cons k2 r =>
      rw [listMax]
      rcases List.mem_cons.mp hx with rfl | hx2
      · exact le_max_left _ _
      · exact (ih x hx2).trans (le_max_right _ _)

/-! ### Counting and uniqueness helpers -/

theorem length_filter_not_add {α : Type} (p : α → Bool) (l : List α) :
    (l.filter p).length + (l.filter (fun a => ! p a)).length = l.length := by
  induction l with
  | nil => rfl
  | cons a t ih =>
    by_cases h : p a = true <;> simp [List.filter_cons, h] <;> omega

theorem length_filterMap_of_isSome {α β : Type} (f : α → Option β) :
    ∀ (l : List α), (∀ a ∈ l, (f a).isSome) → (l.filterMap f).length = l.length := by
  intro l
  induction l with
  | nil => intro _; rfl
  | cons a t ih =>
    intro h
    obtain ⟨b, hb⟩ := Option.isSome_iff_exists.mp (h a (List.mem_cons_self a t))
    simp only [List.filterMap_cons, hb, List.length_cons]
    rw [ih (fun x hx => h x (List.mem_cons_of_mem a hx))]

theorem filterMap_nodup_unique {α β : Type} [DecidableEq α] (f : α → Option β) :
    ∀ (l : List α), (l.filterMap f).Nodup →
      ∀ a ∈ l, ∀ b ∈ l, f a = f b → (f a).isSome → a = b := by
  intro l
  induction l with
  | nil => intro _ a ha; cases ha
  | cons x t ih =>
    intro hnd a ha b hb hab hsome
    cases hfx : f x with
    | none =>
      have hat : a ∈ t := by
        rcases List.mem_cons.mp ha with rfl | h
        · rw [hfx] at hsome; cases hsome
        · exact h
      have hbt : b ∈ t := by
        rcases List.mem_cons.mp hb with rfl | h
        · rw [hab, hfx] at hsome
          cases hsome
        · exact h
      have hnd2 : (t.filterMap f).Nodup := by
        simp only [List.filterMap_cons, hfx] at hnd
        exact hnd
      exact ih hnd2 a hat b hbt hab hsome
    | some v =>
      have hnd2 : v ∉ t.filterMap f ∧ (t.filterMap f).Nodup := by
        simp only [List.filterMap_cons, hfx] at hnd
        exact List.nodup_cons.mp hnd
      rcases List.mem_cons.mp ha with rfl | hat
      · rcases List.mem_cons.mp hb with rfl | hbt
        · rfl
        · exfalso
          apply hnd2.1
          exact List.mem_filterMap.mpr ⟨b, hbt, by rw [← hab, hfx]⟩
      · rcases List.mem_cons.mp hb with rfl | hbt
        · exfalso
          apply hnd2.1
          exact List.mem_filterMap.mpr ⟨a, hat, by rw [hab, hfx]⟩
        · exact ih hnd2.2 a hat b hbt hab hsome

/-! ### Unfolding `read_jsongz_files` -/

theorem densePaths_eq (paths : List String) (hne : paths ≠ [])
    (hparse : ∀ p ∈ paths, (pathIndex p).isSome) :
    densePaths paths =
      (List.range (readLen paths)).map (fun i => dget (readDict paths) (Int.ofNat i)) := by
  rw [densePaths, if_neg (fun hc => hne (List.length_eq_zero.mp hc)),
    buildDict_eq_ok paths [] hparse]
  rfl

theorem read_jsongz_files_eq (w : World) (paths : List String) (nw : Int)
    (mf : Option Int) (sched : List Nat) (hne : paths ≠ [])
    (hparse : ∀ p ∈ paths, (pathIndex p).isSome) :
    read_jsongz_files w paths nw mf sched =
      (if (capApply mf (densePaths paths)).length = 0 then
        ReadResult.mk (.ok []) (readWarnList paths)
      else
        ReadResult.mk (fetchRecords w nw sched (capApply mf (densePaths paths)))
          (readWarnList paths)) := by
  rw [read_jsongz_files, if_neg (fun hc => hne (List.length_eq_zero.mp hc)),
    buildDict_eq_ok paths [] hparse, densePaths_eq paths hne hparse]
  rfl

theorem denseLen_eq (paths : List String) (hne : paths ≠ [])
    (hparse : ∀ p ∈ paths, (pathIndex p).isSome) :
    denseLen paths = readLen paths := by
  rw [denseLen, densePaths_eq paths hne hparse, List.length_map, List.length_range]

theorem missingCount_eq_readMissing (paths : List String) (hne : paths ≠ [])
    (hparse : ∀ p ∈ paths, (pathIndex p).isSome) :
    missingCount paths = readMissing paths := by
  rw [missingCount, densePaths_eq paths hne hparse, readMissing, List.filter_map,
    List.length_map]
  congr 1
  apply List.filter_congr
  intro i _
  rw [Function.comp_apply, dmem_eq_isSome_dget]
  cases dget (readDict paths) (Int.ofNat i) <;> rfl

/-! ### The key positions of the reconstructed dict -/

theorem dget_readDict_eq_some (paths : List String)
    (hsome : ∀ p ∈ paths, (pathIndex p).isSome)
    (hnodup : (paths.filterMap pathIndex).Nodup)
    (p : String) (hp : p ∈ paths) (k : Int) (hk : pathIndex p = some k) :
    dget (readDict paths) k = some p := by
  rw [readDict, dget_buildL paths [] k hsome]
  cases hf : paths.reverse.find? (fun q => pathIndex q == some k) with
  | none =>
    rw [List.find?_eq_none] at hf
    exact absurd (by simp [hk] : (pathIndex p == some k) = true)
      (by simpa using hf p (List.mem_reverse.mpr hp))
  | some q =>
    have hq1 : q ∈ paths := List.mem_reverse.mp (List.mem_of_find?_eq_some hf)
    have hq2 : pathIndex q = some k := by
      have h3 := List.find?_some hf
      exact beq_iff_eq.mp h3
    have hqp : q = p := filterMap_nodup_unique pathIndex paths hnodup q hq1 p hp
      (by rw [hq2, hk]) (by simp [hq2])
    rw [hqp]

theorem dget_readDict_eq_none (paths : List String)
    (hsome : ∀ p ∈ paths, (pathIndex p).isSome) (k : Int)
    (hnone : ∀ p ∈ paths, pathIndex p ≠ some k) :
    dget (readDict paths) k = none := by
  rw [readDict, dget_buildL paths [] k hsome]
  cases hf : paths.reverse.find? (fun q => pathIndex q == some k) with
  | none => rfl
  | some q =>
    have h3 := List.find?_some hf
    exact absurd (beq_iff_eq.mp h3)
      (hnone q (List.mem_reverse.mp (List.mem_of_find?_eq_some hf)))

/-! ### Counting present and missing positions -/

theorem count_present_eq (paths : List String)
    (hparse : ∀ p ∈ paths, ∃ i : Nat, pathIndex p = some (i : Int))
    (hnodup : (paths.filterMap pathIndex).Nodup) :
    ((List.range (readLen paths)).filter
      (fun i => dmem (readDict paths) (Int.ofNat i))).length = paths.length := by
  have hsome : ∀ p ∈ paths, (pathIndex p).isSome := by
    intro p hp
    obtain ⟨i, hi⟩ := hparse p hp
    simp [hi]
  have hIn : ∀ k ∈ paths.filterMap pathIndex, 0 ≤ k := by
    intro k hk
    obtain ⟨p, hp, hpk⟩ := List.mem_filterMap.mp hk
    obtain ⟨i, hi⟩ := hparse p hp
    rw [hi] at hpk
    injection hpk with h2
    omega
  have hbound : ∀ k ∈ paths.filterMap pathIndex,
      k ≤ listMax ((readDict paths).map (fun kv => kv.1)) := by
    intro k hk
    obtain ⟨p, hp, hpk⟩ := List.mem_filterMap.mp hk
    apply le_listMax
    exact (mem_keys_buildL paths [] k hsome).mpr (Or.inl ⟨p, hp, hpk⟩)
  have hA : ((List.range (readLen paths)).filter
      (fun i => dmem (readDict paths) (Int.ofNat i))).Nodup :=
    List.Nodup.filter _ (List.nodup_range _)
  have hB : ((paths.filterMap pathIndex).map Int.toNat).Nodup := by
    apply List.Nodup.map_on _ hnodup
    intro x hx y hy hxy
    have h1 := hIn x hx
    have h2 := hIn y hy
    omega
  have hmem : ∀ j : Nat,
      (j ∈ (List.range (readLen paths)).filter (fun i => dmem (readDict paths) (Int.ofNat i))
        ↔ j ∈ (paths.filterMap pathIndex).map Int.toNat) := by
    intro j
    rw [List.mem_filter, List.mem_range, List.mem_map]
    constructor
    · rintro ⟨hjlen, hjmem⟩
      obtain ⟨p, hp, hpk⟩ := (dmem_buildL_iff paths hsome (j : Int)).mp hjmem
      exact ⟨(j : Int), List.mem_filterMap.mpr ⟨p, hp, hpk⟩, by omega⟩
    · rintro ⟨k, hk, hkj⟩
      have h0k := hIn k hk
      have hkmax := hbound k hk
      constructor
      · rw [readLen]
        omega
      · apply (dmem_buildL_iff paths hsome (j : Int)).mpr
        obtain ⟨p, hp, hpk⟩ := List.mem_filterMap.mp hk
        refine ⟨p, hp, ?_⟩
        rw [hpk]
        congr 1
        omega
  have hperm := (List.perm_ext_iff_of_nodup hA hB).mpr hmem
  rw [hperm.length_eq, List.length_map, length_filterMap_of_isSome _ paths hsome]

theorem readMissing_eq_sub (paths : List String)
    (hparse : ∀ p ∈ paths, ∃ i : Nat, pathIndex p = some (i : Int))
    (hnodup : (paths.filterMap pathIndex).Nodup) :
    readMissing paths = readLen paths - paths.length := by
  have hadd := length_filter_not_add (fun i => dmem (readDict paths) (Int.ofNat i))
    (List.range (readLen paths))
  rw [count_present_eq paths hparse hnodup, List.length_range] at hadd
  rw [readMissing]
  omega

theorem dget_readDict_eq_find (paths : List String)
    (hsome : ∀ p ∈ paths, (pathIndex p).isSome) (k : Int) :
    dget (readDict paths) k = paths.reverse.find? (fun q => pathIndex q == some k) := by
  rw [readDict, dget_buildL paths [] k hsome]
  cases paths.reverse.find? (fun q => pathIndex q == some k) <;> rfl

theorem dget_readDict_mem (paths : List String)
    (hsome : ∀ p ∈ paths, (pathIndex p).isSome) (k : Int) (p : String)
    (h : dget (readDict paths) k = some p) : p ∈ paths ∧ pathIndex p = some k := by
  rw [dget_readDict_eq_find paths hsome k] at h
  refine ⟨List.mem_reverse.mp (List.mem_of_find?_eq_some h), ?_⟩
  have h3 := List.find?_some h
  exact beq_iff_eq.mp h3

theorem densePaths_getD (paths : List String) (hne : paths ≠ [])
    (hsome : ∀ p ∈ paths, (pathIndex p).isSome) (i : Nat) (hi : i < readLen paths) :
    (densePaths paths).getD i none = dget (readDict paths) (Int.ofNat i) := by
  rw [densePaths_eq paths hne hsome, List.getD_eq_getElem?_getD, List.getElem?_map,
    List.getElem?_range hi]
  rfl

theorem getD_map_loadVal (w : World) (l : List (Option String)) (i : Nat)
    (hi : i < l.length) :
    (l.map (loadVal w)).getD i "" = loadVal w (l.getD i none) := by
  rw [List.getD_eq_getElem?_getD, List.getElem?_map, List.getD_eq_getElem?_getD,
    List.getElem?_eq_getElem hi]
  rfl

theorem index_lt_readLen (paths : List String)
    (hsome : ∀ p ∈ paths, (pathIndex p).isSome) (p : String) (hp : p ∈ paths)
    (i : Nat) (hpi : pathIndex p = some (Int.ofNat i)) : i < readLen paths := by
  have hk : (Int.ofNat i) ∈ (readDict paths).map (fun kv => kv.1) :=
    (mem_keys_buildL paths [] _ hsome).mpr (Or.inl ⟨p, hp, hpi⟩)
  have hle : (i : Int) ≤ listMax ((readDict paths).map (fun kv => kv.1)) :=
    le_listMax _ _ hk
  rw [readLen]
  omega

theorem readLen_attained (paths : List String) (hne : paths ≠ [])
    (hparse : ∀ p ∈ paths, ∃ i : Nat, pathIndex p = some (Int.ofNat i)) :
    ∃ p ∈ paths, ∃ i : Nat, pathIndex p = some (Int.ofNat i) ∧ i + 1 = readLen paths := by
  have hsome : ∀ p ∈ paths, (pathIndex p).isSome := by
    intro p hp
    obtain ⟨i, hi⟩ := hparse p hp
    simp [hi]
  obtain ⟨p0, hp0⟩ := List.exists_mem_of_ne_nil paths hne
  obtain ⟨i0, hi0⟩ := hparse p0 hp0
  have hkey0 : (Int.ofNat i0) ∈ (readDict paths).map (fun kv => kv.1) :=
    (mem_keys_buildL paths [] _ hsome).mpr (Or.inl ⟨p0, hp0, hi0⟩)
  have hkeysne : (readDict paths).map (fun kv => kv.1) ≠ [] := by
    intro hc
    rw [hc] at hkey0
    cases hkey0
  have hmax_mem := listMax_mem _ hkeysne
  have hmax_or := (mem_keys_buildL paths [] _ hsome).mp hmax_mem
  have hmax_ex : ∃ p ∈ paths,
      pathIndex p = some (listMax ((readDict paths).map (fun kv => kv.1))) := by
    rcases hmax_or with h | h
    · exact h
    · cases h
  obtain ⟨p, hp, hpM⟩ := hmax_ex
  obtain ⟨iM, hiM⟩ := hparse p hp
  rw [hiM] at hpM
  have hM : Int.ofNat iM = listMax ((readDict paths).map (fun kv => kv.1)) := by
    injection hpM
  have hM2 : (iM : Int) = listMax ((readDict paths).map (fun kv => kv.1)) := hM
  refine ⟨p, hp, iM, hiM, ?_⟩
  rw [readLen]
  omega

/-! ### World update and save helpers -/

theorem writeFile_files (w : World) (p : String) (d : FileData) (q : String) :
    (writeFile w p d).files q = if q = p then some d else w.files q := rfl

theorem removeFile_files (w : World) (p : String) (q : String) :
    (removeFile w p).files q = if q = p then none else w.files q := rfl

theorem save_pickle_gzip_eq (w : World) (data : DatasetDict) (save_path : String)
    (compresslevel : Int) (hend : strEndsWith save_path ".pkl.gz" = true)
    (htmp : pathExists w (strReplace save_path ".gz" "") = false) :
    save_pickle_gzip w data save_path compresslevel =
      (removeFile
        (writeFile (writeFile w (strReplace save_path ".gz" "") (.pickled data))
          save_path (.gzbytes (.pickled data)))
        (strReplace save_path ".gz" ""), none) := by
  rw [save_pickle_gzip, if_neg (by simp [hend]), if_neg (by simp [htmp])]
  have hw1 : (writeFile w (strReplace save_path ".gz" "") (.pickled data)).files
      (strReplace save_path ".gz" "") = some (.pickled data) := by
    simp [writeFile]
  simp only [compress_file_then_delete_old, hw1]

theorem save_pickle_gzip_spec (w : World) (data : DatasetDict) (save_path : String)
    (compresslevel : Int) (hend : strEndsWith save_path ".pkl.gz" = true)
    (htmp : pathExists w (strReplace save_path ".gz" "") = false) :
    (save_pickle_gzip w data save_path compresslevel).2 = none
    ∧ (save_pickle_gzip w data save_path compresslevel).1.files save_path
        = some (.gzbytes (.pickled data))
    ∧ (∀ q, q ≠ save_path → q ≠ strReplace save_path ".gz" "" →
        (save_pickle_gzip w data save_path compresslevel).1.files q = w.files q) := by
  rw [save_pickle_gzip_eq w data save_path compresslevel hend htmp]
  refine ⟨rfl, ?_, ?_⟩
  · rw [removeFile_files, if_neg (fun hc => strReplace_gz_ne hend hc.symm),
      writeFile_files, if_pos rfl]
  · intro q hq1 hq2
    rw [removeFile_files, if_neg hq2, writeFile_files, if_neg hq1,
      writeFile_files, if_neg hq2]

/-! ### Fetch helpers -/

theorem fetchRecords_nil (w : World) (nw : Int) (sched : List Nat) :
    fetchRecords w nw sched [] = .ok [] := by
  rw [fetchRecords]
  by_cases h : 0 < nw
  · rw [if_pos h]
    rfl
  · rw [if_neg h]
    rfl

theorem collectSlots_some_length {β : Type} (acc : Nat → Option β) :
    ∀ (idxs : List Nat) (l : List β), collectSlots acc idxs = some l →
      l.length = idxs.length := by
  intro idxs
  induction idxs with
  | nil =>
    intro l h
    rw [collectSlots] at h
    cases h
    rfl
  | cons j rest ih =>
    intro l h
    rw [collectSlots] at h
    cases hj : acc j with
    | none => rw [hj] at h; cases h
    | some b =>
      rw [hj] at h
      cases hrest : collectSlots acc rest with
      | none => rw [hrest] at h; cases h
      | some bs =>
        rw [hrest] at h
        cases h
        simp [ih bs hrest]

theorem fetchRecords_ok_length (w : World) (nw : Int) (sched : List Nat)
    (items : List (Option String)) (rs : List String)
    (h : fetchRecords w nw sched items = .ok rs) : rs.length = items.length := by
  rw [fetchRecords] at h
  by_cases hnw : 0 < nw
  · rw [if_pos hnw] at h
    cases hpool : mpPoolMap (load_jsongz_as_str w) items sched with
    | none => rw [hpool] at h; cases h
    | some l =>
      rw [hpool] at h
      have h1 := (mapExcept_ok_elim (fun r => r) (.ok "") "" l rs h).1
      have h2 := collectSlots_some_length _ (List.range items.length) l hpool
      rw [h1, h2, List.length_range]
  · rw [if_neg hnw] at h
    exact (mapExcept_ok_elim (load_jsongz_as_str w) none "" items rs h).1

/-! ### Claim theorems -/

/-- C8: for an empty input collection of shard paths, `read_jsongz_files`
returns an empty sequence immediately, with no index reconstruction
attempted and no missing-files warning emitted. -/
theorem C8_empty_input (w : World) (num_workers : Int) (max_files : Option Int)
    (sched : List Nat) :
    read_jsongz_files w [] num_workers max_files sched = ⟨.ok [], []⟩ := rfl

/-- C6: `load_jsongz_as_str` returns the literal string "null" on the absence
marker (Python `None`); on an existing gzip file it returns the decompressed,
whitespace-trimmed textual content; and on a file that exists but is not a
readable gzip archive (plain text or pickle bytes) the error propagates to
the caller rather than being swallowed. -/
theorem C6_single_file_reader :
    (∀ w : World, load_jsongz_as_str w none = .ok "null")
    ∧ (∀ (w : World) (p s : String), w.files p = some (.gzbytes (.str s)) →
        load_jsongz_as_str w (some p) = .ok (pyStrip s))
    ∧ (∀ (w : World) (p s : String), w.files p = some (.str s) →
        ∃ e, load_jsongz_as_str w (some p) = .error e)
    ∧ (∀ (w : World) (p : String) (d : DatasetDict), w.files p = some (.pickled d) →
        ∃ e, load_jsongz_as_str w (some p) = .error e) := by
  refine ⟨fun w => rfl, ?_, ?_, ?_⟩
  · intro w p s h
    simp [load_jsongz_as_str, h, gzReadStr, rawBytes]
  · intro w p s h
    exact ⟨.badGzip, by simp [load_jsongz_as_str, h, gzReadStr]⟩
  · intro w p d h
    exact ⟨.badGzip, by simp [load_jsongz_as_str, h, gzReadStr]⟩

/-- Witness for C6 at a concrete world: the absence marker, a readable shard
and a corrupt shard. -/
theorem C6_witness :
    load_jsongz_as_str wFiles none = .ok "null"
    ∧ load_jsongz_as_str wFiles (some "a.json.gz") = .ok (pyStrip " A ")
    ∧ (∃ e, load_jsongz_as_str wFiles (some "bad.json.gz") = .error e) :=
  ⟨C6_single_file_reader.1 wFiles,
   C6_single_file_reader.2.1 wFiles "a.json.gz" " A " rfl,
   C6_single_file_reader.2.2.1 wFiles "bad.json.gz" "junk" rfl⟩

/-- C2: for every ordered sequence of shard paths and missing markers, the
parallel branch (`num_workers > 0`) and the sequential branch of the fetch
stage of `read_jsongz_files` return the same result for every completion
order (any permutation of the task indices): the map of
`load_jsongz_as_str` over the input, so position `i` of a successful result
is exactly the read of input position `i`. -/
theorem C2_parallel_eq_sequential (w : World) (items : List (Option String))
    (sched : List Nat) (num_workers : Int) (_hw : 0 < num_workers)
    (hperm : sched.Perm (List.range items.length)) :
    fetchRecords w num_workers sched items = fetchRecords w 0 sched items
    ∧ fetchRecords w num_workers sched items = mapExcept (load_jsongz_as_str w) items
    ∧ (∀ rs, fetchRecords w num_workers sched items = .ok rs →
        rs.length = items.length ∧
        ∀ i, i < items.length →
          load_jsongz_as_str w (items.getD i none) = .ok (rs.getD i "")) := by
  have hcov : ∀ j, j < items.length → j ∈ sched := by
    intro j hj
    exact hperm.mem_iff.mpr (List.mem_range.mpr hj)
  have h1 := fetchRecords_eq_mapExcept w num_workers sched items hcov
  have h0 : fetchRecords w 0 sched items = mapExcept (load_jsongz_as_str w) items := by
    rw [fetchRecords, if_neg (by decide)]
  refine ⟨by rw [h1, h0], h1, ?_⟩
  intro rs hrs
  rw [h1] at hrs
  obtain ⟨hlen, hpt⟩ := mapExcept_ok_elim (load_jsongz_as_str w) none "" items rs hrs
  exact ⟨hlen, fun i hi => hpt i hi⟩

/-- Witness for C2 at a concrete input: two items, two workers, reversed
completion order. -/
theorem C2_witness :
    (0 : Int) < 2
    ∧ ([1, 0].Perm (List.range ([some "a.json.gz", none] : List (Option String)).length))
    ∧ fetchRecords wFiles 2 [1, 0] [some "a.json.gz", none] =
        fetchRecords wFiles 0 [1, 0] [some "a.json.gz", none] :=
  ⟨by decide, by decide,
   (C2_parallel_eq_sequential wFiles [some "a.json.gz", none] [1, 0] 2 (by decide)
     (by decide)).1⟩

/-- C9: `save_pickle_gzip` requires that no file exists at the uncompressed
temporary path (the save path with ".gz" removed): when one does, the call
fails by assertion before writing anything, returning the world unchanged
(both the temporary and the final path keep their contents); the check is on
the temporary path, not on the final artifact path. -/
theorem C9_tmp_precondition (w : World) (data : DatasetDict) (save_path : String)
    (compresslevel : Int) (hend : strEndsWith save_path ".pkl.gz" = true)
    (htmp : pathExists w (strReplace save_path ".gz" "") = true) :
    save_pickle_gzip w data save_path compresslevel = (w, some .assertionError) := by
  rw [save_pickle_gzip, if_neg (by simp [hend]), if_pos htmp]

/-- Witness for C9 at a concrete world whose temporary path is occupied. -/
theorem C9_witness :
    strEndsWith "r/dataset_cache.pkl.gz" ".pkl.gz" = true
    ∧ pathExists wTmpBusy (strReplace "r/dataset_cache.pkl.gz" ".gz" "") = true
    ∧ save_pickle_gzip wTmpBusy ddNew "r/dataset_cache.pkl.gz" 2 =
        (wTmpBusy, some .assertionError) :=
  ⟨by decide, by decide,
   C9_tmp_precondition wTmpBusy ddNew "r/dataset_cache.pkl.gz" 2 (by decide) (by decide)⟩

/-- C3 counterexample: a save path already holding a cache artifact (with the
temporary path free). `save_pickle_gzip` does NOT fail: it succeeds and
replaces the artifact's content, so the claim that the primitive requires
the final target path to not exist, and that a save to an occupied path
leaves the artifact unmodified, is false on the code. -/
theorem C3_counterexample :
    pathExists wOccupied "r/dataset_cache.pkl.gz" = true
    ∧ (save_pickle_gzip wOccupied ddNew "r/dataset_cache.pkl.gz" 2).2 = none
    ∧ (save_pickle_gzip wOccupied ddNew "r/dataset_cache.pkl.gz" 2).1.files
        "r/dataset_cache.pkl.gz" = some (.gzbytes (.pickled ddNew))
    ∧ wOccupied.files "r/dataset_cache.pkl.gz" = some (.gzbytes (.pickled []))
    ∧ ddNew ≠ ([] : DatasetDict) :=
  ⟨rfl, rfl, rfl, rfl, by decide⟩

/-- C3 amended: `save_pickle_gzip` checks only the temporary path
(`save_path.replace(".gz", "")`), not the final target path. When the
temporary path is free, the save succeeds even if the final path already
holds an artifact, and afterwards the final path holds the gzip-compressed
pickle of the new data (any previous artifact is replaced); overwrite
protection for the final path exists only in the orchestration layer
(`load_dataset` checks existence before calling save). -/
theorem C3_amended_overwrite (w : World) (data : DatasetDict) (save_path : String)
    (compresslevel : Int) (hend : strEndsWith save_path ".pkl.gz" = true)
    (htmp : pathExists w (strReplace save_path ".gz" "") = false) :
    (save_pickle_gzip w data save_path compresslevel).2 = none
    ∧ (save_pickle_gzip w data save_path compresslevel).1.files save_path
        = some (.gzbytes (.pickled data)) := by
  have h := save_pickle_gzip_spec w data save_path compresslevel hend htmp
  exact ⟨h.1, h.2.1⟩

/-- Witness for the amended C3: saving over the occupied final path of
`wOccupied` succeeds and replaces the artifact. -/
theorem C3_amended_witness :
    strEndsWith "r/dataset_cache.pkl.gz" ".pkl.gz" = true
    ∧ pathExists wOccupied (strReplace "r/dataset_cache.pkl.gz" ".gz" "") = false
    ∧ (save_pickle_gzip wOccupied ddNew "r/dataset_cache.pkl.gz" 2).2 = none :=
  ⟨by decide, by decide,
   (C3_amended_overwrite wOccupied ddNew "r/dataset_cache.pkl.gz" 2 (by decide)
     (by decide)).1⟩

/-- C5: the cap (`max_files`) is applied after gap-filling, so it bounds
logical positions rather than present files: with cap `c` the result is the
fetch of the first `min c (max_index+1)` positions of the gap-filled
sequence, and a successful result has exactly `min c (max_index+1)`
entries. -/
theorem C5_cap_bounds_positions (w : World) (paths : List String) (nw : Int)
    (sched : List Nat) (c : Nat)
    (hparse : ∀ p ∈ paths, (pathIndex p).isSome) :
    (read_jsongz_files w paths nw (some (c : Int)) sched).result =
      fetchRecords w nw sched ((densePaths paths).take c)
    ∧ (∀ rs, (read_jsongz_files w paths nw (some (c : Int)) sched).result = .ok rs →
        rs.length = min c (denseLen paths)) := by
  by_cases hne : paths = []
  · subst hne
    constructor
    · rw [show read_jsongz_files w [] nw (some (c : Int)) sched = ⟨.ok [], []⟩ from rfl]
      rw [show densePaths [] = [] from rfl, List.take_nil, fetchRecords_nil]
    · intro rs hrs
      rw [show read_jsongz_files w [] nw (some (c : Int)) sched = ⟨.ok [], []⟩ from rfl] at hrs
      injection hrs with h2
      rw [← h2]
      simp [denseLen, densePaths]
  · have hcap : capApply (some (c : Int)) (densePaths paths) = (densePaths paths).take c := by
      show pySlice (densePaths paths) (c : Int) = (densePaths paths).take c
      rw [pySlice, if_pos (Int.natCast_nonneg c)]
      simp
    rw [read_jsongz_files_eq w paths nw (some (c : Int)) sched hne hparse, hcap]
    constructor
    · by_cases hlen : ((densePaths paths).take c).length = 0
      · rw [if_pos hlen]
        rw [List.length_eq_zero.mp hlen, fetchRecords_nil]
      · rw [if_neg hlen]
    · intro rs hrs
      by_cases hlen : ((densePaths paths).take c).length = 0
      · rw [if_pos hlen] at hrs
        cases hrs
        rw [List.length_take] at hlen
        rw [denseLen]
        exact hlen.symm
      · rw [if_neg hlen] at hrs
        have := fetchRecords_ok_length w nw sched _ rs hrs
        rw [List.length_take] at this
        rw [this, denseLen]

/-- C1: for a nonempty collection of shard paths whose base names parse as
distinct nonnegative integers forming index set I, with readable gzip files
at each path, the uncapped read succeeds and returns a sequence of length
`max(I)+1` (every index is below that length and the maximum attains it);
position `i` holds the stripped content of the file with index `i` for
`i ∈ I` and the sentinel "null" for `i ∉ I`; the number of sentinel
positions equals `max(I)+1 - |I|`, and the non-fatal warning is emitted
exactly when that count is positive. -/
theorem C1_gap_reconstruction (w : World) (paths : List String) (nw : Int)
    (sched : List Nat) (hne : paths ≠ [])
    (hparse : ∀ p ∈ paths, ∃ i : Nat, pathIndex p = some (Int.ofNat i))
    (hnodup : (paths.filterMap pathIndex).Nodup)
    (hread : ∀ p ∈ paths, ∃ s, w.files p = some (.gzbytes (.str s)))
    (hsched : ∀ j, j < denseLen paths → j ∈ sched) :
    ∃ rs, (read_jsongz_files w paths nw none sched).result = .ok rs
      ∧ rs.length = denseLen paths
      ∧ paths.length ≤ denseLen paths
      ∧ missingCount paths = denseLen paths - paths.length
      ∧ ((read_jsongz_files w paths nw none sched).warnings ≠ [] ↔
          paths.length < denseLen paths)
      ∧ (∀ (p : String) (i : Nat), p ∈ paths → pathIndex p = some (Int.ofNat i) →
          i < denseLen paths)
      ∧ (∃ p ∈ paths, ∃ i : Nat, pathIndex p = some (Int.ofNat i) ∧
          i + 1 = denseLen paths)
      ∧ (∀ (i : Nat) (p s : String), p ∈ paths →
          pathIndex p = some (Int.ofNat i) → w.files p = some (.gzbytes (.str s)) →
          rs.getD i "" = pyStrip s)
      ∧ (∀ i : Nat, i < denseLen paths →
          (∀ p ∈ paths, pathIndex p ≠ some (Int.ofNat i)) → rs.getD i "" = "null") := by
  have hsome : ∀ p ∈ paths, (pathIndex p).isSome := by
    intro p hp
    obtain ⟨i, hi⟩ := hparse p hp
    simp [hi]
  have hparse2 : ∀ p ∈ paths, ∃ i : Nat, pathIndex p = some (i : Int) := hparse
  have hdl : denseLen paths = readLen paths := denseLen_eq paths hne hsome
  have hload : ∀ o ∈ densePaths paths, load_jsongz_as_str w o = .ok (loadVal w o) := by
    intro o ho
    rw [densePaths_eq paths hne hsome] at ho
    obtain ⟨i, hi_mem, hio⟩ := List.mem_map.mp ho
    cases hdg : dget (readDict paths) (Int.ofNat i) with
    | none =>
      rw [← hio, hdg]
      rfl
    | some p =>
      obtain ⟨hp_mem, hp_idx⟩ := dget_readDict_mem paths hsome _ p hdg
      obtain ⟨s, hs⟩ := hread p hp_mem
      have hl : load_jsongz_as_str w (some p) = .ok (pyStrip s) := by
        simp [load_jsongz_as_str, hs, gzReadStr, rawBytes]
      rw [← hio, hdg, hl, loadVal, hl]
  have hfetch : fetchRecords w nw sched (densePaths paths) =
      .ok ((densePaths paths).map (loadVal w)) := by
    rw [fetchRecords_eq_mapExcept w nw sched _ (fun j hj => hsched j hj)]
    exact mapExcept_eq_ok_map _ _ _ hload
  have hattain := readLen_attained paths hne hparse
  have hlen_pos : ¬ (densePaths paths).length = 0 := by
    obtain ⟨p, hp, i, hpi, hatt⟩ := hattain
    have : (densePaths paths).length = readLen paths := by
      rw [show (densePaths paths).length = denseLen paths from rfl, hdl]
    omega
  have heq := read_jsongz_files_eq w paths nw none sched hne hsome
  rw [show capApply none (densePaths paths) = densePaths paths from rfl,
    if_neg hlen_pos] at heq
  have hle : paths.length ≤ denseLen paths := by
    have h1 := count_present_eq paths hparse2 hnodup
    have h2 := List.length_filter_le
      (fun i => dmem (readDict paths) (Int.ofNat i)) (List.range (readLen paths))
    rw [h1, List.length_range] at h2
    omega
  have hsub : missingCount paths = denseLen paths - paths.length := by
    rw [missingCount_eq_readMissing paths hne hsome,
      readMissing_eq_sub paths hparse2 hnodup, hdl]
  refine ⟨(densePaths paths).map (loadVal w), ?_, ?_, hle, hsub, ?_, ?_, ?_, ?_, ?_⟩
  · rw [heq]
    exact hfetch
  · rw [List.length_map]
    rfl
  · rw [heq]
    have hiff : (readWarnList paths ≠ []) ↔ 0 < readMissing paths := by
      rw [readWarnList]
      by_cases h0 : 0 < readMissing paths
      · simp [h0]
      · simp [h0]
    have hmiss : readMissing paths = denseLen paths - paths.length := by
      rw [readMissing_eq_sub paths hparse2 hnodup, hdl]
    rw [show (ReadResult.mk (fetchRecords w nw sched (densePaths paths))
      (readWarnList paths)).warnings = readWarnList paths from rfl, hiff, hmiss]
    omega
  · intro p i hp hpi
    rw [hdl]
    exact index_lt_readLen paths hsome p hp i hpi
  · obtain ⟨p, hp, i, hpi, hatt⟩ := hattain
    exact ⟨p, hp, i, hpi, by rw [hdl]; exact hatt⟩
  · intro i p s hp hpi hfile
    have hi : i < readLen paths := index_lt_readLen paths hsome p hp i hpi
    have hilen : i < (densePaths paths).length := by
      rw [show (densePaths paths).length = denseLen paths from rfl, hdl]
      exact hi
    rw [getD_map_loadVal w (densePaths paths) i hilen,
      densePaths_getD paths hne hsome i hi,
      dget_readDict_eq_some paths hsome hnodup p hp _ hpi]
    simp [loadVal, load_jsongz_as_str, hfile, gzReadStr, rawBytes]
  · intro i hi hnone
    have hi2 : i < readLen paths := by rw [← hdl]; exact hi
    have hilen : i < (densePaths paths).length := by
      rw [show (densePaths paths).length = denseLen paths from rfl]
      exact hi
    rw [getD_map_loadVal w (densePaths paths) i hilen,
      densePaths_getD paths hne hsome i hi2,
      dget_readDict_eq_none paths hsome _ (fun p hp => hnone p hp)]
    rfl

/-- Witness for C1: indices 0, 2 and 5; the reconstructed sequence has the
contents at 0, 2 and 5 and the sentinel at 1, 3 and 4, and the missing-files
warning is emitted. -/
theorem C1_witness :
    (read_jsongz_files wGaps pathsGaps 0 none [0, 1, 2, 3, 4, 5]).result =
      .ok ["A", "null", "B", "null", "null", "C"]
    ∧ missingCount pathsGaps = 3
    ∧ (read_jsongz_files wGaps pathsGaps 0 none [0, 1, 2, 3, 4, 5]).warnings ≠ [] := by
  have h := C1_gap_reconstruction wGaps pathsGaps 0 [0, 1, 2, 3, 4, 5]
    (by decide)
    (by
      intro p hp
      simp only [pathsGaps, List.mem_cons, List.not_mem_nil, or_false] at hp
      rcases hp with rfl | rfl | rfl
      · exact ⟨0, rfl⟩
      · exact ⟨2, rfl⟩
      · exact ⟨5, rfl⟩)
    (by decide)
    (by
      intro p hp
      simp only [pathsGaps, List.mem_cons, List.not_mem_nil, or_false] at hp
      rcases hp with rfl | rfl | rfl
      · exact ⟨" A ", rfl⟩
      · exact ⟨"B", rfl⟩
      · exact ⟨"C", rfl⟩)
    (by decide)
  obtain ⟨rs, h1, -, -, h4, h5, -⟩ := h
  refine ⟨rfl, ?_, h5.mpr (by decide)⟩
  rw [h4]
  decide

/-- The split names of a successful resolution are exactly the input split
names, in order. -/
theorem resolveSplits_keys (w : World) (nw : Int) (sched : List Nat)
    (mh : String → Except PyErr (Option Int)) :
    ∀ (stp : List (String × String)) (resolved : List (String × List String))
      (ws : List String),
      resolveSplits w nw sched mh stp = (.ok resolved, ws) →
      resolved.map (fun sh => sh.1) = stp.map (fun sp => sp.1) := by
  intro stp
  induction stp with
  | nil =>
    intro resolved ws h
    rw [resolveSplits] at h
    cases h
    rfl
  | cons sp rest ih =>
    obtain ⟨s, p⟩ := sp
    intro resolved ws h
    rw [resolveSplits] at h
    rcases hro : resolveOne w nw sched mh s p with ⟨r1, ws1⟩
    rw [hro] at h
    cases r1 with
    | error e => cases h
    | ok hs =>
      rcases hrs : resolveSplits w nw sched mh rest with ⟨r2, ws2⟩
      rw [hrs] at h
      cases r2 with
      | error e => cases h
      | ok tl =>
        cases h
        rw [List.map_cons, List.map_cons, ih tl ws2 hrs]

/-- C7: before resolving, `load_dataset` drops every configured split whose
source path does not exist, emitting one warning per removed split; when all
configured splits are removed this way it raises the "No splits found"
`ValueError` instead of returning an empty bundle; and a returned bundle's
split names are exactly the surviving split names in configuration order. -/
theorem C7_missing_split_filtering (w : World) (stp : List (String × String))
    (num_workers : Int) (mh : MaxHouses) (sched : List Nat) :
    (∀ sp ∈ stp.filter (fun sp => ! pathExists w sp.2),
        splitWarn sp.1 sp.2 ∈
          (load_dataset w none (some stp) num_workers false mh sched).warnings)
    ∧ (stp.filter (fun sp => pathExists w sp.2) = [] →
        load_dataset w none (some stp) num_workers false mh sched =
          ⟨.error .valueError,
           (stp.filter (fun sp => ! pathExists w sp.2)).map
             (fun sp => splitWarn sp.1 sp.2)⟩)
    ∧ (∀ (w2 : World) (dd : DatasetDict),
        (load_dataset w none (some stp) num_workers false mh sched).result =
          .ok (w2, dd) →
        dd.map (fun sh => sh.1) =
          (stp.filter (fun sp => pathExists w sp.2)).map (fun sp => sp.1)) := by
  have hld : load_dataset w none (some stp) num_workers false mh sched =
      loadSplits w (if num_workers < 0 then (w.cpuCount : Int) else num_workers) false
        none (capForSplit mh) sched stp := by
    rw [load_dataset, if_neg (by simp), if_neg (by simp), if_neg (by simp),
      if_neg (by simp)]
    rfl
  refine ⟨?_, ?_, ?_⟩
  · intro sp hsp
    rw [hld, loadSplits]
    by_cases hk : (stp.filter (fun sp => pathExists w sp.2)).length = 0
    · rw [if_pos hk]
      exact List.mem_map_of_mem _ hsp
    · rw [if_neg hk]
      rcases hrs : resolveSplits w
          (if num_workers < 0 then (w.cpuCount : Int) else num_workers) sched
          (capForSplit mh) (stp.filter (fun sp => pathExists w sp.2)) with ⟨r, ws⟩
      cases r with
      | error e =>
        exact List.mem_append_left _ (List.mem_map_of_mem _ hsp)
      | ok resolved =>
        exact List.mem_append_left _ (List.mem_map_of_mem _ hsp)
  · intro hkeq
    have hk : (stp.filter (fun sp => pathExists w sp.2)).length = 0 := by
      rw [hkeq]
      rfl
    rw [hld, loadSplits, if_pos hk]
  · intro w2 dd h
    rw [hld, loadSplits] at h
    by_cases hk : (stp.filter (fun sp => pathExists w sp.2)).length = 0
    · rw [if_pos hk] at h
      cases h
    · rw [if_neg hk] at h
      rcases hrs : resolveSplits w
          (if num_workers < 0 then (w.cpuCount : Int) else num_workers) sched
          (capForSplit mh) (stp.filter (fun sp => pathExists w sp.2)) with ⟨r, ws⟩
      rw [hrs] at h
      cases r with
      | error e => cases h
      | ok resolved =>
        have h2 : (Except.ok (w, resolved.map (fun sh =>
            ((sh.1, ⟨sh.2, "procthor-100k", sh.1⟩) : String × LazyJsonDataset))) :
              Except PyErr (World × DatasetDict)) = .ok (w2, dd) := h
        injection h2 with h3
        have hdd : dd = resolved.map (fun sh =>
            ((sh.1, ⟨sh.2, "procthor-100k", sh.1⟩) : String × LazyJsonDataset)) :=
          congrArg Prod.snd h3 |>.symm
        rw [hdd, List.map_map]
        exact resolveSplits_keys w _ sched (capForSplit mh) _ resolved ws hrs

/-- Witness for C7 at a concrete world: split "train" exists, split "val"
does not; the bundle keeps exactly "train" and the warning names "val". -/
theorem C7_witness :
    splitWarn "val" "v" ∈
      (load_dataset wGaps none (some [("train", "d"), ("val", "v")]) 0 false
        .noCap []).warnings
    ∧ (∀ (w2 : World) (dd : DatasetDict),
        (load_dataset wGaps none (some [("train", "d"), ("val", "v")]) 0 false
          .noCap []).result = .ok (w2, dd) →
        dd.map (fun sh => sh.1) =
          ([("train", "d"), ("val", "v")].filter
            (fun sp => pathExists wGaps sp.2)).map (fun sp => sp.1)) := by
  have h := C7_missing_split_filtering wGaps [("train", "d"), ("val", "v")] 0 .noCap []
  exact ⟨h.1 ("val", "v") (by decide), h.2.2⟩

/-- C10: a non-dict `max_houses_per_split` (`None` or a single int) is
normalized to a mapping that yields that same cap (or no cap) for every
split name; an explicit dict is kept as is, so a resolved split whose name
is missing from it fails with `KeyError` during that split's resolution
(in both the `.jsonl.gz` and the directory branch), and so does the whole
`load_dataset` call, rather than treating the missing key as "no cap". -/
theorem C10_cap_normalization :
    (∀ s : String, capForSplit .noCap s = .ok none)
    ∧ (∀ (n : Int) (s : String), capForSplit (.intCap n) s = .ok (some n))
    ∧ (∀ (d : List (String × Int)) (s : String), s ∉ d.map (fun kv => kv.1) →
        capForSplit (.dictCap d) s = .error .keyError)
    ∧ (∀ (w : World) (nw : Int) (sched : List Nat) (d : List (String × Int))
        (s p : String), s ∉ d.map (fun kv => kv.1) →
        (strEndsWith p ".jsonl.gz" = true ∨ w.dirs p = true) →
        resolveOne w nw sched (capForSplit (.dictCap d)) s p = (.error .keyError, []))
    ∧ (∀ (w : World) (nw : Int) (sched : List Nat) (d : List (String × Int))
        (s p : String), s ∉ d.map (fun kv => kv.1) → pathExists w p = true →
        (strEndsWith p ".jsonl.gz" = true ∨ w.dirs p = true) →
        (load_dataset w none (some [(s, p)]) nw false (.dictCap d) sched).result =
          .error .keyError) := by
  have hkey : ∀ (d : List (String × Int)) (s : String), s ∉ d.map (fun kv => kv.1) →
      capForSplit (.dictCap d) s = .error .keyError := by
    intro d s hs
    rw [capForSplit]
    have hf : d.find? (fun kv => kv.1 == s) = none := by
      rw [List.find?_eq_none]
      intro kv hkv hbeq
      exact hs (List.mem_map.mpr ⟨kv, hkv, beq_iff_eq.mp hbeq⟩)
    rw [hf]
  have hone : ∀ (w : World) (nw : Int) (sched : List Nat) (d : List (String × Int))
      (s p : String), s ∉ d.map (fun kv => kv.1) →
      (strEndsWith p ".jsonl.gz" = true ∨ w.dirs p = true) →
      resolveOne w nw sched (capForSplit (.dictCap d)) s p =
        (.error .keyError, []) := by
    intro w nw sched d s p hs hsrc
    rw [resolveOne]
    by_cases hj : strEndsWith p ".jsonl.gz" = true
    · rw [if_pos hj, hkey d s hs]
    · have hd : w.dirs p = true := by
        rcases hsrc with h | h
        · exact absurd h hj
        · exact h
      rw [if_neg hj, if_pos hd, hkey d s hs]
  refine ⟨fun s => rfl, fun n s => rfl, hkey, hone, ?_⟩
  intro w nw sched d s p hs hex hsrc
  have hld : load_dataset w none (some [(s, p)]) nw false (.dictCap d) sched =
      loadSplits w (if nw < 0 then (w.cpuCount : Int) else nw) false none
        (capForSplit (.dictCap d)) sched [(s, p)] := by
    rw [load_dataset, if_neg (by simp), if_neg (by simp), if_neg (by simp),
      if_neg (by simp)]
    rfl
  have hkept : ([(s, p)].filter (fun sp => pathExists w sp.2)) = [(s, p)] := by
    simp [List.filter_cons, hex]
  rw [hld, loadSplits, hkept]
  rw [if_neg (by simp)]
  have hres : resolveSplits w (if nw < 0 then (w.cpuCount : Int) else nw) sched
      (capForSplit (.dictCap d)) [(s, p)] = (.error .keyError, []) := by
    rw [resolveSplits, hone w _ sched d s p hs hsrc]
  rw [hres]

/-- Witness for C10 at a concrete cap dict missing the resolved split's
name. -/
theorem C10_witness :
    ("train" ∉ ([("other", 3)] : List (String × Int)).map (fun kv => kv.1))
    ∧ capForSplit (.dictCap [("other", 3)]) "train" = .error .keyError
    ∧ (load_dataset wGaps none (some [("train", "d")]) 0 false
        (.dictCap [("other", 3)]) []).result = .error .keyError := by
  refine ⟨by decide, C10_cap_normalization.2.2.1 [("other", 3)] "train" (by decide), ?_⟩
  exact C10_cap_normalization.2.2.2.2 wGaps 0 [] [("other", 3)] "train" "d" (by decide)
    (by decide) (Or.inr (by decide))

/-- C4: with caching on, `load_dataset` first checks the fixed path
`<path_to_splits>/dataset_cache.pkl.gz`. When a valid artifact exists there,
it returns the artifact's deserialized content with the world unchanged and
no warnings - no split resolution or fetching happens. When no file exists
at the cache path, the bundle is exactly the one an uncached run builds,
and at the end the artifact is written (the save succeeds and afterwards
the cache path holds the pickled bundle); the existence check at write time
sees the same state as the initial check, so the artifact is written if and
only if none existed. -/
theorem C4_cache_orchestration :
    (∀ (w : World) (root : String) (nw : Int) (sched : List Nat) (d : DatasetDict),
        w.files (get_cache_file_path root) = some (.gzbytes (.pickled d)) →
        load_dataset w (some root) none nw true .noCap sched = ⟨.ok (w, d), []⟩)
    ∧ (∀ (w : World) (root : String) (nw : Int) (sched : List Nat)
        (w0 : World) (dd : DatasetDict),
        pathExists w (get_cache_file_path root) = false →
        pathExists w (strReplace (get_cache_file_path root) ".gz" "") = false →
        (load_dataset w (some root) none nw false .noCap sched).result = .ok (w0, dd) →
        (load_dataset w (some root) none nw true .noCap sched).result =
            .ok ((save_pickle_gzip w dd (get_cache_file_path root) 2).1, dd)
          ∧ (save_pickle_gzip w dd (get_cache_file_path root) 2).2 = none
          ∧ (save_pickle_gzip w dd (get_cache_file_path root) 2).1.files
              (get_cache_file_path root) = some (.gzbytes (.pickled dd))) := by
  constructor
  · intro w root nw sched d hcache
    have hload : load_pickle_gzip w (get_cache_file_path root) = .ok d := by
      rw [load_pickle_gzip, if_neg (by simp [cache_file_path_endsWith root]), hcache]
      rfl
    rw [load_dataset, if_neg (by simp), if_neg (by simp), if_neg (by simp)]
    simp only [Option.getD_some]
    rw [if_pos ⟨trivial, by rw [pathExists, hcache]; rfl⟩, hload]
  · intro w root nw sched w0 dd hmiss htmp hL0
    have hend := cache_file_path_endsWith root
    have hA0 : load_dataset w (some root) none nw false .noCap sched =
        (if pathExists w root = false then (⟨.error .assertionError, []⟩ : LoadResult)
         else loadSplits w (if nw < 0 then (w.cpuCount : Int) else nw) false (some root)
            (capForSplit .noCap) sched
            [("train", pathJoin root "train"), ("val", pathJoin root "val"),
             ("test", pathJoin root "test")]) := by
      rw [load_dataset, if_neg (by simp), if_neg (by simp), if_neg (by simp),
        if_neg (by simp)]
    have hA1 : load_dataset w (some root) none nw true .noCap sched =
        (if pathExists w root = false then (⟨.error .assertionError, []⟩ : LoadResult)
         else loadSplits w (if nw < 0 then (w.cpuCount : Int) else nw) true (some root)
            (capForSplit .noCap) sched
            [("train", pathJoin root "train"), ("val", pathJoin root "val"),
             ("test", pathJoin root "test")]) := by
      rw [load_dataset, if_neg (by simp), if_neg (by simp), if_neg (by simp),
        if_neg (by simp [hmiss])]
    by_cases hroot : pathExists w root = true
    case neg =>
      exfalso
      have hroot2 : pathExists w root = false := by
        cases hpe : pathExists w root
        · rfl
        · exact absurd hpe hroot
      rw [hA0, if_pos hroot2] at hL0
      cases hL0
    case pos =>
      have hld0 : load_dataset w (some root) none nw false .noCap sched =
          loadSplits w (if nw < 0 then (w.cpuCount : Int) else nw) false (some root)
            (capForSplit .noCap) sched
            [("train", pathJoin root "train"), ("val", pathJoin root "val"),
             ("test", pathJoin root "test")] := by
        rw [hA0, if_neg (by simp [hroot])]
      have hld1 : load_dataset w (some root) none nw true .noCap sched =
          loadSplits w (if nw < 0 then (w.cpuCount : Int) else nw) true (some root)
            (capForSplit .noCap) sched
            [("train", pathJoin root "train"), ("val", pathJoin root "val"),
             ("test", pathJoin root "test")] := by
        rw [hA1, if_neg (by simp [hroot])]
      rw [hld0, loadSplits] at hL0
      rw [hld1, loadSplits]
      by_cases hk : (([("train", pathJoin root "train"), ("val", pathJoin root "val"),
          ("test", pathJoin root "test")] : List (String × String)).filter
            (fun sp => pathExists w sp.2)).length = 0
      · rw [if_pos hk] at hL0
        cases hL0
      · rw [if_neg hk] at hL0
        rw [if_neg hk]
        rcases hrs : resolveSplits w (if nw < 0 then (w.cpuCount : Int) else nw) sched
            (capForSplit .noCap)
            (([("train", pathJoin root "train"), ("val", pathJoin root "val"),
              ("test", pathJoin root "test")] : List (String × String)).filter
                (fun sp => pathExists w sp.2)) with ⟨r, ws⟩
        rw [hrs] at hL0
        cases r with
        | error e => cases hL0
        | ok resolved =>
          have h2 : (Except.ok (w, resolved.map (fun sh =>
              ((sh.1, ⟨sh.2, "procthor-100k", sh.1⟩) : String × LazyJsonDataset))) :
                Except PyErr (World × DatasetDict)) = .ok (w0, dd) := hL0
          injection h2 with h3
          have hdd : dd = resolved.map (fun sh =>
              ((sh.1, ⟨sh.2, "procthor-100k", sh.1⟩) : String × LazyJsonDataset)) :=
            (congrArg Prod.snd h3).symm
          have hsave := save_pickle_gzip_eq w dd (get_cache_file_path root) 2 hend htmp
          have hspec := save_pickle_gzip_spec w dd (get_cache_file_path root) 2 hend htmp
          refine ⟨?_, hspec.1, hspec.2.1⟩
          simp only [assembleCache]
          rw [if_pos (by trivial)]
          simp only [Option.getD_some]
          rw [if_neg (by simp [hmiss]), ← hdd, hsave]
/-- Witness for C4 at concrete worlds: with an artifact present the load
returns its content untouched; with no artifact the load builds the bundle
and writes the artifact. -/
theorem C4_witness :
    load_dataset wOccupied (some "r") none 0 true .noCap [] = ⟨.ok (wOccupied, []), []⟩
    ∧ pathExists wRoot (get_cache_file_path "r") = false
    ∧ (load_dataset wRoot (some "r") none 0 true .noCap []).result =
        .ok ((save_pickle_gzip wRoot [("train", ⟨[], "procthor-100k", "train"⟩)]
          (get_cache_file_path "r") 2).1, [("train", ⟨[], "procthor-100k", "train"⟩)])
    ∧ (save_pickle_gzip wRoot [("train", ⟨[], "procthor-100k", "train"⟩)]
        (get_cache_file_path "r") 2).1.files (get_cache_file_path "r") =
      some (.gzbytes (.pickled [("train", ⟨[], "procthor-100k", "train"⟩)])) := by
  have hb := C4_cache_orchestration.2 wRoot "r" 0 [] wRoot
    [("train", ⟨[], "procthor-100k", "train"⟩)] (by decide) (by decide) rfl
  exact ⟨C4_cache_orchestration.1 wOccupied "r" 0 [] [] rfl, by decide, hb.1, hb.2.2⟩

/-- Witness for C5: indices 0 through 9 with cap 4 give exactly 4 records. -/
theorem C5_witness :
    (read_jsongz_files wTen pathsTen 0 (some ((4 : Nat) : Int)) []).result =
      fetchRecords wTen 0 [] ((densePaths pathsTen).take 4)
    ∧ (∀ rs, (read_jsongz_files wTen pathsTen 0 (some ((4 : Nat) : Int)) []).result =
        .ok rs → rs.length = min 4 (denseLen pathsTen)) :=
  C5_cap_bounds_positions wTen pathsTen 0 [] 4 (by decide)

end SpocData
